import Mathlib

/-!
Verification of the segment-to-clip boundary resolution engine of PodVibe.fm
(`src/utils/clip-splicer.ts`).

The TypeScript source is shallowly embedded:
JavaScript numbers that can be `NaN` in a claim-relevant way are modelled as
`Option ℚ` (`none` = `NaN`); other numeric fields are plain rationals.
JavaScript strings are Lean `String`s, and string algorithms work on their
underlying `List Char`.  JavaScript arrays are Lean lists; the one place where
object identity and in-place mutation matter (`mergeOverlappingRanges`) is
modelled with an explicit store (a list of range objects indexed by position)
threaded through the computation, so that mutation of the caller's objects is
observable in the result.
-/

/-- A JavaScript value that can flow into `parseTime`: a number, a string, or
anything else (the source's final `return 0` branch). -/
inductive JSVal where
  | num : ℚ → JSVal
  | str : String → JSVal
  | other : JSVal
deriving DecidableEq

/-- Decimal digit character, `0 ≤ d ≤ 9` (other inputs never occur). -/
def digitChar : ℕ → Char
  | 0 => '0'
  | 1 => '1'
  | 2 => '2'
  | 3 => '3'
  | 4 => '4'
  | 5 => '5'
  | 6 => '6'
  | 7 => '7'
  | 8 => '8'
  | 9 => '9'
  | _ => '*'

/-- Numeric value of a digit character. -/
def charVal (c : Char) : ℕ := c.toNat - 48

/-- Value of a big-endian digit string, as read by `parseFloat`. -/
def digitsToNat (cs : List Char) : ℕ :=
  cs.foldl (fun a c => 10 * a + charVal c) 0

/-- Fuel-driven decimal rendering of a natural number (big-endian digits);
structural so that it reduces in the kernel. -/
def natToCharsGo : ℕ → ℕ → List Char
  | 0, _ => []
  | f + 1, n =>
    if n < 10 then [digitChar n]
    else natToCharsGo f (n / 10) ++ [digitChar (n % 10)]

/-- Decimal rendering of a natural number, as JavaScript renders an integral
number in a template literal. -/
def natToChars (n : ℕ) : List Char := natToCharsGo (n + 1) n

/-- Decimal rendering of an integer (JavaScript template-literal form). -/
def intToChars (i : ℤ) : List Char :=
  if i < 0 then '-' :: natToChars i.natAbs else natToChars i.toNat

/-- Model of `String.prototype.padStart(len, c)` on the character list. -/
def padStartChars (len : ℕ) (c : Char) (cs : List Char) : List Char :=
  List.replicate (len - cs.length) c ++ cs

/-- Truncation of a rational toward zero (JavaScript integer division /
remainder semantics). -/
def ratTrunc (q : ℚ) : ℤ := if q < 0 then -⌊-q⌋ else ⌊q⌋

/-- Model of the JavaScript `%` operator on numbers (truncated remainder). -/
def jsMod (a b : ℚ) : ℚ := a - b * (ratTrunc (a / b) : ℚ)

/-- Model of `Number.prototype.toFixed(3)` for a nonnegative magnitude:
`k` is the rounded value scaled by 1000. -/
def toFixed3Core (k : ℕ) : List Char :=
  natToChars (k / 1000) ++ '.' :: padStartChars 3 '0' (natToChars (k % 1000))

/-- Model of `Number.prototype.toFixed(3)`: round to the nearest thousandth
(ties toward the larger value, per ECMA-262), render with exactly three
decimal places. -/
def toFixed3 (q : ℚ) : List Char :=
  let n : ℤ := ⌊q * 1000 + 1 / 2⌋
  if n < 0 then '-' :: toFixed3Core n.natAbs else toFixed3Core n.toNat

/-- Model of `Number.prototype.toFixed(0)`: round to the nearest integer,
ties toward the larger value. -/
def toFixed0 (q : ℚ) : List Char :=
  let n : ℤ := ⌊q + 1 / 2⌋
  if n < 0 then '-' :: natToChars n.natAbs else natToChars n.toNat

/-- Splits a leading `+`/`-` sign, as `parseFloat` does. -/
def splitSign : List Char → ℚ × List Char
  | [] => (1, [])
  | c :: rest =>
    if c = '-' then (-1, rest)
    else if c = '+' then (1, rest)
    else (1, c :: rest)

/-- Magnitude part of `parseFloat` after sign stripping: integer digits,
then an optional `.` followed by fraction digits; `none` models `NaN`. -/
def jsParseFloatMag (cs : List Char) : Option ℚ :=
  let intDigits := cs.takeWhile Char.isDigit
  let rest := cs.dropWhile Char.isDigit
  let fracDigits :=
    match rest with
    | r0 :: r => if r0 = '.' then r.takeWhile Char.isDigit else []
    | [] => []
  if intDigits = [] ∧ fracDigits = [] then none
  else
    some ((digitsToNat intDigits : ℚ) +
      (digitsToNat fracDigits : ℚ) / 10 ^ fracDigits.length)

/-- Model of the JavaScript `parseFloat` builtin on the decimal fragment it
accepts here: an optional sign, then integer digits, then an optional `.`
followed by fraction digits; the longest such prefix is converted, and `none`
models a `NaN` result.  (Exponents, `Infinity` and leading whitespace play no
role in this program and are not modelled.) -/
def jsParseFloat (cs : List Char) : Option ℚ :=
  let sgn := splitSign cs
  (jsParseFloatMag sgn.2).map (fun v => sgn.1 * v)

/-- NaN-propagating addition on JavaScript numbers. -/
def jsAdd : Option ℚ → Option ℚ → Option ℚ
  | some a, some b => some (a + b)
  | _, _ => none

/-- NaN-propagating multiplication by a constant on JavaScript numbers. -/
def jsMulC : Option ℚ → ℚ → Option ℚ
  | some a, c => some (a * c)
  | none, _ => none

/-- Model of `String.prototype.endsWith` for a single character. -/
def endsWithChar (cs : List Char) (c : Char) : Bool :=
  match cs.getLast? with
  | some d => d = c
  | none => false

/-- Model of `String.prototype.split(c)` (single-character separator). -/
def splitOnChar (c : Char) : List Char → List (List Char)
  | [] => [[]]
  | x :: xs =>
    if x = c then [] :: splitOnChar c xs
    else
      match splitOnChar c xs with
      | [] => [[x]]
      | p :: ps => (x :: p) :: ps

/-- The string branch of `parseTime` (source lines 60–73), on the character
list of the string. -/
def parseTimeChars (cs : List Char) : Option ℚ :=
  if endsWithChar cs 's' then jsParseFloat cs.dropLast
  else if cs.contains ':' then
    let parts := (splitOnChar ':' cs).map jsParseFloat
    if parts.length = 2 then
      jsAdd (jsMulC (parts.getD 0 none) 60) (parts.getD 1 none)
    else if parts.length = 3 then
      jsAdd (jsAdd (jsMulC (parts.getD 0 none) 3600) (jsMulC (parts.getD 1 none) 60))
        (parts.getD 2 none)
    else jsParseFloat cs
  else jsParseFloat cs

/-- The Timestamp Normalizer `parseTime` (source lines 57–75).  A number
passes through; a string is parsed (`"90.5s"`, `"1:30.5"`, `"1:02:03"`, or a
bare float); any other value yields `0`.  `none` models `NaN`. -/
def parseTime : JSVal → Option ℚ
  | JSVal.num q => some q
  | JSVal.str s => parseTimeChars s.data
  | JSVal.other => some 0

/-- A normalized transcript segment (`TranscriptSegment` in
`src/types/transcript.ts`).  `start`/`end` are JavaScript numbers that may be
`NaN` (`none`) after lenient parsing; `speaker` is optional. -/
structure TranscriptSegment where
  text : String
  start : Option ℚ
  «end» : Option ℚ
  speaker : Option String := none
  confidence : Option ℚ := none
deriving DecidableEq

/-- A raw, pre-normalization segment object as `normalizeSegments` sees it:
every alias field may be absent (`none`).  Text-like and speaker-like fields
are modelled at their expected string type, time fields as number-or-string
JavaScript values. -/
structure RawSegment where
  text : Option String := none
  transcript : Option String := none
  content : Option String := none
  start : Option JSVal := none
  start_time : Option JSVal := none
  startTime : Option JSVal := none
  «end» : Option JSVal := none
  end_time : Option JSVal := none
  endTime : Option JSVal := none
  speaker : Option String := none
  speaker_label : Option String := none
  speakerId : Option String := none
  confidence : Option ℚ := none

/-- JavaScript truthiness of a possibly-absent string (absent and `""` are
falsy). -/
def truthyStr : Option String → Bool
  | some s => s ≠ ""
  | none => false

/-- JavaScript truthiness of a possibly-absent number-or-string value
(absent, `0` and `""` are falsy; the `other` constructor models object
values, which are truthy). -/
def truthyVal : Option JSVal → Bool
  | some (JSVal.num q) => q ≠ 0
  | some (JSVal.str s) => s ≠ ""
  | some JSVal.other => true
  | none => false

/-- The JavaScript `||` operator on two possibly-absent strings. -/
def jsOrStr (a b : Option String) : Option String :=
  if truthyStr a then a else b

/-- The JavaScript `||` operator where the right operand is a literal
default, on strings. -/
def jsOrStrD (a : Option String) (d : String) : String :=
  if truthyStr a then a.getD d else d

/-- The JavaScript `||` operator on two possibly-absent values. -/
def jsOrVal (a b : Option JSVal) : Option JSVal :=
  if truthyVal a then a else b

/-- The JavaScript `||` operator where the right operand is a literal
default. -/
def jsOrValD (a : Option JSVal) (d : JSVal) : JSVal :=
  if truthyVal a then a.getD d else d

/-- Normalization of one raw segment (body of the `map` in
`normalizeSegments`, source lines 48–54): each field is resolved through a
`||` alias chain, and the time fields go through `parseTime`. -/
def normalizeSegment (seg : RawSegment) : TranscriptSegment where
  text := jsOrStrD (jsOrStr (jsOrStr seg.text seg.transcript) seg.content) ""
  start := parseTime
    (jsOrValD (jsOrVal (jsOrVal seg.start seg.start_time) seg.startTime) (JSVal.num 0))
  «end» := parseTime
    (jsOrValD (jsOrVal (jsOrVal seg.«end» seg.end_time) seg.endTime) (JSVal.num 0))
  speaker := jsOrStr (jsOrStr seg.speaker seg.speaker_label) seg.speakerId
  confidence := seg.confidence

/-- `normalizeSegments` (source lines 47–55). -/
def normalizeSegments (segments : List RawSegment) : List TranscriptSegment :=
  segments.map normalizeSegment

/-- A parsed transcript: the ordered segment list (optional metadata fields
of the TypeScript interface are not used by any function modelled here). -/
structure Transcript where
  segments : List TranscriptSegment

/-- JavaScript `>=` between a segment field and a query number (`NaN`
compares false). -/
def jsGeQ : Option ℚ → ℚ → Bool
  | some v, q => v ≥ q
  | none, _ => false

/-- JavaScript `<=` between a segment field and a query number (`NaN`
compares false). -/
def jsLeQ : Option ℚ → ℚ → Bool
  | some v, q => v ≤ q
  | none, _ => false

/-- `findSegmentsByTimeRange` (source lines 105–113): keeps exactly the
segments fully contained in the query window. -/
def findSegmentsByTimeRange (transcript : Transcript) (start «end» : ℚ) :
    List TranscriptSegment :=
  transcript.segments.filter
    (fun segment => jsGeQ segment.start start && jsLeQ segment.«end» «end»)

/-- JavaScript `===` on two numbers (`NaN === NaN` is false). -/
def jsEqNum : Option ℚ → Option ℚ → Bool
  | some x, some y => x = y
  | _, _ => false

/-- `Math.min` of two JavaScript numbers (`NaN` poisons). -/
def jsMin2 : Option ℚ → Option ℚ → Option ℚ
  | some a, some b => some (min a b)
  | _, _ => none

/-- `Math.max` of two JavaScript numbers (`NaN` poisons). -/
def jsMax2 : Option ℚ → Option ℚ → Option ℚ
  | some a, some b => some (max a b)
  | _, _ => none

/-- `Math.min(...xs)` over a nonempty spread (the empty case cannot be
reached where this is used). -/
def jsMinList : List (Option ℚ) → Option ℚ
  | [] => none
  | x :: xs => xs.foldl jsMin2 x

/-- `Math.max(...xs)` over a nonempty spread. -/
def jsMaxList : List (Option ℚ) → Option ℚ
  | [] => none
  | x :: xs => xs.foldl jsMax2 x

/-- NaN-propagating subtraction on JavaScript numbers. -/
def jsSub : Option ℚ → Option ℚ → Option ℚ
  | some a, some b => some (a - b)
  | _, _ => none

/-- Fallback segment used for (unreachable) out-of-bounds array reads. -/
def defaultSegment : TranscriptSegment := ⟨"", none, none, none, none⟩

/-- The backward speaker-turn walk (source lines 141–147): visits
`allSegments[startIdx-1], …, allSegments[0]` in order, pulling `start`
earlier while the speaker label strictly equals `spk`, stopping at the first
mismatch.  It runs over the reversed prefix before `startIdx`. -/
def walkBackList (spk : Option String) (start : Option ℚ) :
    List TranscriptSegment → Option ℚ
  | [] => start
  | s :: rest => if s.speaker = spk then walkBackList spk s.start rest else start

/-- The forward speaker-turn walk (source lines 155–161): visits
`allSegments[endIdx+1], …`, extending `end` while the speaker matches. -/
def walkFwdList (spk : Option String) («end» : Option ℚ) :
    List TranscriptSegment → Option ℚ
  | [] => «end»
  | s :: rest => if s.speaker = spk then walkFwdList spk s.«end» rest else «end»

/-- Options object of `expandToNaturalBoundaries`; `none` fields take the
destructuring defaults `paddingSeconds = 0.5`, `expandToSpeakerTurn = true`. -/
structure ExpandOptions where
  paddingSeconds : Option ℚ := none
  expandToSpeakerTurn : Option Bool := none

/-- `expandToNaturalBoundaries` (source lines 119–170).  Returns `none` for
an empty selection (the thrown `Error`); otherwise the `TimeRange`'s
`start`/`end` fields as JavaScript numbers.  The speaker-turn walks locate
the first/last selected segment in `allSegments` by value equality on
`start`/`end` (`findIndex`; a failed search yields `-1`, and the loops then
do not run, modelled by the `none` branch of `findIdx?`). -/
def expandToNaturalBoundaries (selectedSegments allSegments : List TranscriptSegment)
    (options : ExpandOptions) : Option (Option ℚ × Option ℚ) :=
  let paddingSeconds := options.paddingSeconds.getD (1 / 2)
  let expandToSpeakerTurn := options.expandToSpeakerTurn.getD true
  match selectedSegments with
  | [] => none
  | first :: restSel =>
    let lastSeg := List.getLastD restSel first
    let start0 := jsMinList (selectedSegments.map (fun s => s.start))
    let end0 := jsMaxList (selectedSegments.map (fun s => s.«end»))
    let expanded :=
      if expandToSpeakerTurn then
        let firstSpeaker := first.speaker
        let lastSpeaker := lastSeg.speaker
        let s1 :=
          if truthyStr firstSpeaker then
            match allSegments.findIdx? (fun s => jsEqNum s.start first.start) with
            | some startIdx =>
              walkBackList firstSpeaker start0 ((allSegments.take startIdx).reverse)
            | none => start0
          else start0
        let e1 :=
          if truthyStr lastSpeaker then
            match allSegments.findIdx? (fun s => jsEqNum s.«end» lastSeg.«end») with
            | some endIdx =>
              walkFwdList lastSpeaker end0 (allSegments.drop (endIdx + 1))
            | none => end0
          else end0
        (s1, e1)
      else (start0, end0)
    some (jsMax2 (some 0) (jsSub expanded.1 (some paddingSeconds)),
      jsAdd expanded.2 (some paddingSeconds))

/-- A time range (`TimeRange` in `src/types/transcript.ts`).  The merger and
planner operate on ranges with finite numeric fields. -/
structure TimeRange where
  start : ℚ
  «end» : ℚ
deriving DecidableEq

/-- Fallback range for (unreachable) out-of-bounds store reads. -/
def defaultRange : TimeRange := ⟨0, 0⟩

/-- Write position `i` of a list, leaving it unchanged when out of bounds:
the mutable-store update for one JavaScript object. -/
def setIdx : List α → ℕ → α → List α
  | [], _, _ => []
  | _ :: xs, 0, v => v :: xs
  | x :: xs, n + 1, v => x :: setIdx xs n v

/-- The sweep loop of `mergeOverlappingRanges` (source lines 178–187) over
the store of range objects.  `store` maps each object (by its position in
the caller's array) to its current field values; `acc` holds the object
references pushed to `merged` so far, most recent first.  A merge step
mutates the most recently pushed object's `end` field in place. -/
def mergeFold (g : ℚ) : List ℕ → List TimeRange → List ℕ → List TimeRange × List ℕ
  | [], store, acc => (store, acc)
  | i :: is, store, acc =>
    match acc with
    | [] => mergeFold g is store [i]
    | last :: _ =>
      let lastR := store.getD last defaultRange
      let current := store.getD i defaultRange
      if current.start ≤ lastR.«end» + g then
        mergeFold g is
          (setIdx store last ⟨lastR.start, max lastR.«end» current.«end»⟩) acc
      else mergeFold g is store (i :: acc)

/-- `mergeOverlappingRanges` (source lines 172–190).  The input is the
caller's array of range objects; `[...ranges].sort(...)` shallow-copies the
array, so the sort permutes references and the sweep mutates the caller's
objects through them.  The result is the final state of the caller's
objects together with the list of merged range values the function
returns. -/
def mergeOverlappingRanges (ranges : List TimeRange) (gapThreshold : ℚ) :
    List TimeRange × List TimeRange :=
  if ranges.length = 0 then (ranges, [])
  else
    let sortedIdx := (List.range ranges.length).mergeSort
      (fun i j =>
        decide ((ranges.getD i defaultRange).start ≤ (ranges.getD j defaultRange).start))
    match sortedIdx with
    | [] => (ranges, [])
    | i0 :: rest =>
      let out := mergeFold gapThreshold rest ranges [i0]
      (out.1, out.2.reverse.map (fun i => out.1.getD i defaultRange))

/-- Reference functional sweep on range values: `cur` is the value of the
currently open merged range, the list is the remaining sorted input. -/
def mergeVals (g : ℚ) : TimeRange → List TimeRange → List TimeRange
  | cur, [] => [cur]
  | cur, r :: rs =>
    if r.start ≤ cur.«end» + g then
      mergeVals g ⟨cur.start, max cur.«end» r.«end»⟩ rs
    else cur :: mergeVals g r rs

/-- Codec mode of `ClipOptions`. -/
inductive Codec where
  | copy : Codec
  | reencode : Codec
deriving DecidableEq

/-- `ClipOptions` (`src/types/transcript.ts`): the fully resolved input of
the Extraction Planner.  Optional fields are `none` when absent.  (The
unused `format` field is not read by any modelled function.) -/
structure ClipOptions where
  inputPath : String
  outputPath : String
  start : ℚ
  «end» : ℚ
  codec : Option Codec := none
  fadeIn : Option ℚ := none
  fadeOut : Option ℚ := none

/-- `formatTimestamp` (source lines 196–205): `H:MM:SS.mmm` above one hour,
else `M:SS.mmm`, with `Math.floor` for the hour/minute fields, the
JavaScript `%` for the remainders, `toFixed(3)` for the seconds and
`padStart` zero padding. -/
def formatTimestamp (seconds : ℚ) : String :=
  let h : ℤ := ⌊seconds / 3600⌋
  let m : ℤ := ⌊jsMod seconds 3600 / 60⌋
  let s : ℚ := jsMod seconds 60
  if h > 0 then
    String.mk (intToChars h ++ ':' :: padStartChars 2 '0' (intToChars m)
      ++ ':' :: padStartChars 6 '0' (toFixed3 s))
  else
    String.mk (intToChars m ++ ':' :: padStartChars 6 '0' (toFixed3 s))

/-- Digits of the decimal expansion of a proper fraction `r / d` by long
division (fuel-bounded). -/
def decFracGo : ℕ → ℕ → ℕ → List Char
  | 0, _, _ => []
  | _, 0, _ => []
  | f + 1, r, d => digitChar (r * 10 / d) :: decFracGo f (r * 10 % d) d

/-- Approximate model of JavaScript number-to-string conversion inside a
template literal: exact for integral values; non-integral values get their
decimal expansion (up to 40 digits).  No claim in this development depends
on this rendering. -/
def jsNumChars (q : ℚ) : List Char :=
  let a : ℚ := |q|
  let ip : ℕ := (⌊a⌋).toNat
  (if q < 0 then ['-'] else []) ++ natToChars ip ++
    (if a.den = 1 then [] else '.' :: decFracGo 40 (a.num.toNat % a.den) a.den)

/-- JavaScript truthiness of a possibly-absent number (absent and `0` are
falsy). -/
def truthyNum : Option ℚ → Bool
  | some q => q ≠ 0
  | none => false

/-- `Array.prototype.join(',')`. -/
def joinComma : List String → String
  | [] => ""
  | [x] => x
  | x :: xs => x ++ "," ++ joinComma xs

/-- `Array.prototype.join(' ')`. -/
def joinSpace : List String → String
  | [] => ""
  | [x] => x
  | x :: xs => x ++ " " ++ joinSpace xs

/-- `outputPath.split('.').pop()?.toLowerCase()`: the (lowercased) last
`.`-separated component of the output path. -/
def lastDotComponent (s : String) : String :=
  String.mk (((splitOnChar '.' s.data).getLastD []).map Char.toLower)

/-- The `parts` array of `generateFFmpegCommand` (source lines 207–267) in
the state just before `parts.join(' ')`: seek placement depends on the codec
mode, fades contribute one `-af` argument, codec flags depend on the output
extension. -/
def generateFFmpegCommandParts (o : ClipOptions) : List String :=
  let codec := o.codec.getD Codec.copy
  let duration := o.«end» - o.start
  ["ffmpeg", "-y"]
  ++ (if codec = Codec.copy then [("-ss ") ++ formatTimestamp o.start] else [])
  ++ [("-i \"") ++ o.inputPath ++ "\""]
  ++ (if codec ≠ Codec.copy then [("-ss ") ++ formatTimestamp o.start] else [])
  ++ [("-to ") ++ formatTimestamp o.«end»]
  ++ (if truthyNum o.fadeIn || truthyNum o.fadeOut then
        [("-af \"") ++ joinComma
          ((if truthyNum o.fadeIn then
              [("afade=t=in:st=0:d=") ++ String.mk (jsNumChars (o.fadeIn.getD 0))]
            else [])
          ++ (if truthyNum o.fadeOut then
              [("afade=t=out:st=")
                ++ String.mk (jsNumChars (duration - o.fadeOut.getD 0))
                ++ (":d=") ++ String.mk (jsNumChars (o.fadeOut.getD 0))]
            else [])) ++ "\""]
      else [])
  ++ (if codec = Codec.copy then [("-c copy")]
      else
        let ext := lastDotComponent o.outputPath
        if ext = "mp3" then [("-c:a libmp3lame -q:a 2")]
        else if ext = "aac" ∨ ext = "m4a" then [("-c:a aac -b:a 192k")]
        else if ext = "wav" then [("-c:a pcm_s16le")]
        else if ext = "mp4" then [("-c:v copy -c:a aac -b:a 192k")]
        else [])
  ++ [("\"") ++ o.outputPath ++ "\""]

/-- `generateFFmpegCommand` (source lines 207–267): the joined command
string. -/
def generateFFmpegCommand (o : ClipOptions) : String :=
  joinSpace (generateFFmpegCommandParts o)

/-- `Insight` (`src/types/transcript.ts`): only the fields this core reads
are modelled; the remaining metadata fields do not influence any function
here. -/
structure Insight where
  claim : String := ""
  evidence : String := ""
  timestamp_start : ℚ
  timestamp_end : ℚ

/-- A `Partial<ClipOptions>` object: every field may be absent. -/
structure ClipOptionsPatch where
  inputPath : Option String := none
  outputPath : Option String := none
  start : Option ℚ := none
  «end» : Option ℚ := none
  codec : Option Codec := none
  fadeIn : Option ℚ := none
  fadeOut : Option ℚ := none

/-- Model of `mediaPath.replace(/\.[^.]+$/, repl)`: when the path ends in a
dot followed by at least one non-dot character, that final extension
(including the dot) is replaced, otherwise the path is unchanged. -/
def replaceLastExtChars (cs repl : List Char) : List Char :=
  let r := cs.reverse
  let extR := r.takeWhile (fun c => c ≠ '.')
  if extR.length = r.length ∨ extR = [] then cs
  else ((r.dropWhile (fun c => c ≠ '.')).tail).reverse ++ repl

/-- `clipFromInsight` (source lines 292–307): derives the output path from
the options (JavaScript `||` truthiness) or from the media path, then calls
the planner; the trailing `...options` spread lets present option fields
override the insight-derived ones. -/
def clipFromInsight (mediaPath : String) (insight : Insight)
    (options : ClipOptionsPatch) : String :=
  let fallbackPath := String.mk (replaceLastExtChars mediaPath.data
    (("_clip_") ++ String.mk (toFixed0 insight.timestamp_start) ++ (".mp3")).data)
  let outputPath :=
    match options.outputPath with
    | some p => if p ≠ "" then p else fallbackPath
    | none => fallbackPath
  generateFFmpegCommand
    { inputPath := options.inputPath.getD mediaPath
      outputPath := options.outputPath.getD outputPath
      start := options.start.getD insight.timestamp_start
      «end» := options.«end».getD insight.timestamp_end
      codec := options.codec
      fadeIn := options.fadeIn
      fadeOut := options.fadeOut }

/-- The generated batch filename for the `i`-th insight (0-based `map`
index, source line 316): a 1-based zero-padded 3-digit sequence number and
the `toFixed(0)`-rounded start time. -/
def insightClipFilename (i : ℕ) (insight : Insight) : String :=
  ("clip_") ++ String.mk (padStartChars 3 '0' (natToChars (i + 1)))
    ++ ("_") ++ String.mk (toFixed0 insight.timestamp_start) ++ ("s.mp3")

/-- `Array.prototype.map` with the element index. -/
def mapWithIndex (f : ℕ → α → β) : ℕ → List α → List β
  | _, [] => []
  | i, a :: as => f i a :: mapWithIndex f (i + 1) as

/-- `clipsFromInsights` (source lines 309–320). -/
def clipsFromInsights (mediaPath : String) (insights : List Insight)
    (outputDir : String) (options : ClipOptionsPatch) : List String :=
  mapWithIndex
    (fun i insight =>
      clipFromInsight mediaPath insight
        { options with outputPath := some (outputDir ++ ("/") ++ insightClipFilename i insight) })
    0 insights

/-- Shape of a string whose `parseFloat` succeeds, after sign stripping: it
starts with a digit, or with a dot followed by a digit. -/
def floatShapeOk : List Char → Bool
  | [] => false
  | c :: rest => c.isDigit || (c = '.' && (rest.headD ' ').isDigit)

/-- Substring test: does `needle` occur contiguously inside `hay`? -/
def containsSub (needle : List Char) : List Char → Bool
  | [] => List.isPrefixOf needle []
  | c :: rest => List.isPrefixOf needle (c :: rest) || containsSub needle rest

theorem charVal_d0 : charVal '0' = 0 := rfl
theorem charVal_d1 : charVal '1' = 1 := rfl
theorem charVal_d2 : charVal '2' = 2 := rfl
theorem charVal_d3 : charVal '3' = 3 := rfl
theorem charVal_d4 : charVal '4' = 4 := rfl
theorem charVal_d5 : charVal '5' = 5 := rfl
theorem charVal_d6 : charVal '6' = 6 := rfl
theorem charVal_d7 : charVal '7' = 7 := rfl
theorem charVal_d8 : charVal '8' = 8 := rfl
theorem charVal_d9 : charVal '9' = 9 := rfl

example : parseTime (JSVal.num (3 / 2)) = some (3 / 2) := rfl
example : parseTime (JSVal.str ("90.5s")) = some (181 / 2) := by
  norm_num +decide [parseTime, parseTimeChars, jsParseFloat, jsParseFloatMag, endsWithChar,
    splitSign, digitsToNat, charVal_d0, charVal_d1, charVal_d2, charVal_d3,
    charVal_d4, charVal_d5, charVal_d6, charVal_d7, charVal_d8, charVal_d9]
example : parseTime (JSVal.str ("1:30.5")) = some (181 / 2) := by
  norm_num +decide [parseTime, parseTimeChars, jsParseFloat, jsParseFloatMag, endsWithChar,
    splitOnChar, splitSign, digitsToNat, jsAdd, jsMulC, charVal_d0, charVal_d1, charVal_d2,
    charVal_d3, charVal_d4, charVal_d5, charVal_d6, charVal_d7, charVal_d8,
    charVal_d9]
example : parseTime (JSVal.str ("1:02:03")) = some 3723 := by
  norm_num +decide [parseTime, parseTimeChars, jsParseFloat, jsParseFloatMag, endsWithChar,
    splitOnChar, splitSign, digitsToNat, jsAdd, jsMulC, charVal_d0, charVal_d1, charVal_d2,
    charVal_d3, charVal_d4, charVal_d5, charVal_d6, charVal_d7, charVal_d8,
    charVal_d9]
example : parseTime (JSVal.str ("abc")) = none := by
  norm_num +decide [parseTime, parseTimeChars, jsParseFloat, jsParseFloatMag, endsWithChar,
    splitSign]
example : parseTime (JSVal.str ("12")) = some 12 := by
  norm_num +decide [parseTime, parseTimeChars, jsParseFloat, jsParseFloatMag, endsWithChar,
    splitSign, digitsToNat, charVal_d0, charVal_d1, charVal_d2, charVal_d3,
    charVal_d4, charVal_d5, charVal_d6, charVal_d7, charVal_d8, charVal_d9]



theorem jsParseFloatMag_isSome (cs : List Char) :
    (jsParseFloatMag cs).isSome = floatShapeOk cs := by
  rcases cs with _ | ⟨c, rest⟩
  · simp [jsParseFloatMag, floatShapeOk]
  · by_cases hc : c.isDigit
    · simp [jsParseFloatMag, floatShapeOk, hc, List.takeWhile_cons]
    · rw [jsParseFloatMag]
      rw [List.takeWhile_cons_of_neg (by simpa using hc),
        List.dropWhile_cons_of_neg (by simpa using hc)]
      by_cases hdot : c = '.'
      · subst hdot
        rcases rest with _ | ⟨d, rest'⟩
        · simp [floatShapeOk, hc]
        · by_cases hd : d.isDigit
          · simp [floatShapeOk, hc, hd, List.takeWhile_cons]
          · simp [floatShapeOk, hc, hd,
              List.takeWhile_cons_of_neg (p := Char.isDigit) (by simpa using hd)]
      · simp [floatShapeOk, hc, hdot]

theorem jsParseFloat_isSome_eq (cs : List Char) :
    (jsParseFloat cs).isSome = floatShapeOk (splitSign cs).2 := by
  rw [jsParseFloat]
  simp [jsParseFloatMag_isSome]

theorem floatShapeOk_append (cs r : List Char) (h : floatShapeOk cs = true) :
    floatShapeOk (cs ++ r) = true := by
  rcases cs with _ | ⟨c, rest⟩
  · simp [floatShapeOk] at h
  · simp only [List.cons_append, floatShapeOk, Bool.or_eq_true, Bool.and_eq_true,
      decide_eq_true_eq] at h ⊢
    rcases h with h | ⟨hdot, hd⟩
    · exact Or.inl h
    · refine Or.inr ⟨hdot, ?_⟩
      rcases rest with _ | ⟨d, rest'⟩
      · simp at hd
      · simpa using hd

theorem splitSign_append (t r : List Char) (ht : t ≠ []) :
    splitSign (t ++ r) = ((splitSign t).1, (splitSign t).2 ++ r) := by
  rcases t with _ | ⟨c, t'⟩
  · exact absurd rfl ht
  · simp only [List.cons_append, splitSign]
    split_ifs <;> simp

theorem jsParseFloat_append_isSome (t r : List Char)
    (h : (jsParseFloat t).isSome) : (jsParseFloat (t ++ r)).isSome := by
  rcases t with _ | ⟨c, t'⟩
  · rw [show jsParseFloat [] = none from rfl] at h
    simp at h
  · rw [jsParseFloat_isSome_eq] at h ⊢
    rw [splitSign_append (c :: t') r (by simp)]
    exact floatShapeOk_append _ _ h

theorem jsParseFloat_eq_none_of_append (t r : List Char)
    (h : jsParseFloat (t ++ r) = none) : jsParseFloat t = none := by
  by_contra hne
  have hs : (jsParseFloat t).isSome := Option.ne_none_iff_isSome.mp hne
  have := jsParseFloat_append_isSome t r hs
  rw [h] at this
  simp at this

theorem splitOnChar_head (c : Char) (cs : List Char) :
    ∃ ps, splitOnChar c cs = (cs.takeWhile (fun x => decide (x ≠ c))) :: ps := by
  induction cs with
  | nil => exact ⟨[], rfl⟩
  | cons x xs ih =>
    by_cases hx : x = c
    · subst hx
      refine ⟨splitOnChar x xs, ?_⟩
      simp [splitOnChar, List.takeWhile_cons]
    · obtain ⟨ps, hps⟩ := ih
      refine ⟨ps, ?_⟩
      rw [splitOnChar]
      simp only [if_neg hx, hps]
      rw [List.takeWhile_cons_of_pos (by simpa using hx)]

theorem dropWhile_ne_of_contains (c : Char) (cs : List Char)
    (h : cs.contains c = true) :
    ∃ rest, cs.dropWhile (fun x => decide (x ≠ c)) = c :: rest := by
  induction cs with
  | nil => simp at h
  | cons x xs ih =>
    by_cases hx : x = c
    · subst hx
      exact ⟨xs, by simp [List.dropWhile_cons]⟩
    · rw [List.contains_cons] at h
      have hxc : (c == x) = false := by
        simp [Ne.symm hx]
      rw [hxc] at h
      simp only [Bool.false_or] at h
      obtain ⟨rest, hrest⟩ := ih h
      refine ⟨rest, ?_⟩
      rw [List.dropWhile_cons_of_pos (by simpa using hx)]
      exact hrest

/-- If the whole string fails to parse as a float, so does the part before
the first separator occurrence. -/
theorem jsParseFloat_head_part_none (c : Char) (cs : List Char)
    (hcont : cs.contains c = true) (h : jsParseFloat cs = none) :
    jsParseFloat (cs.takeWhile (fun x => decide (x ≠ c))) = none := by
  obtain ⟨rest, hrest⟩ := dropWhile_ne_of_contains c cs hcont
  have hsplit : cs.takeWhile (fun x => decide (x ≠ c)) ++ (c :: rest) = cs := by
    conv_rhs => rw [← List.takeWhile_append_dropWhile (fun x => decide (x ≠ c)) cs]
    rw [hrest]
  apply jsParseFloat_eq_none_of_append _ (c :: rest)
  rw [hsplit]
  exact h

theorem parseTimeChars_none_of_parseFloat_none (cs : List Char)
    (h : jsParseFloat cs = none) : parseTimeChars cs = none := by
  rw [parseTimeChars]
  by_cases he : endsWithChar cs 's'
  · rw [if_pos he]
    have hne : cs ≠ [] := by
      rcases cs with _ | _
      · simp [endsWithChar] at he
      · simp
    apply jsParseFloat_eq_none_of_append _ [cs.getLast hne]
    rw [List.dropLast_concat_getLast hne]
    exact h
  · rw [if_neg he]
    by_cases hc : cs.contains ':'
    · rw [if_pos hc]
      obtain ⟨ps, hps⟩ := splitOnChar_head ':' cs
      have h0 : jsParseFloat (cs.takeWhile (fun x => decide (x ≠ ':'))) = none :=
        jsParseFloat_head_part_none ':' cs hc h
      simp only [hps, List.map_cons, h0, List.getD_cons_zero]
      split_ifs <;> simp [jsMulC, jsAdd, h]
    · rw [if_neg hc]
      exact h

theorem setIdx_length (l : List α) (i : ℕ) (v : α) :
    (setIdx l i v).length = l.length := by
  induction l generalizing i with
  | nil => rfl
  | cons x xs ih =>
    rcases i with _ | j
    · rfl
    · simp [setIdx, ih]

theorem getD_setIdx_ne (l : List α) (i j : ℕ) (v d : α) (hij : i ≠ j) :
    (setIdx l i v).getD j d = l.getD j d := by
  induction l generalizing i j with
  | nil => rfl
  | cons x xs ih =>
    rcases i with _ | i' <;> rcases j with _ | j'
    · exact absurd rfl hij
    · rfl
    · rfl
    · simpa [setIdx] using ih i' j' (by omega)

theorem getD_setIdx_self (l : List α) (i : ℕ) (v d : α) (hi : i < l.length) :
    (setIdx l i v).getD i d = v := by
  induction l generalizing i with
  | nil => simp at hi
  | cons x xs ih =>
    rcases i with _ | i'
    · rfl
    · simpa [setIdx] using ih i' (by simpa using hi)

theorem setIdx_oob (l : List α) (i : ℕ) (v : α) (hi : l.length ≤ i) :
    setIdx l i v = l := by
  induction l generalizing i with
  | nil => rfl
  | cons x xs ih =>
    rcases i with _ | i'
    · simp at hi
    · simp only [setIdx, List.cons.injEq, true_and]
      exact ih i' (by simpa using hi)

theorem mergeFold_fst_length (g : ℚ) (is : List ℕ) (store : List TimeRange)
    (acc : List ℕ) : (mergeFold g is store acc).1.length = store.length := by
  induction is generalizing store acc with
  | nil => rfl
  | cons i is' ih =>
    rcases acc with _ | ⟨last, accT⟩
    · exact ih store [i]
    · rw [mergeFold]
      split_ifs
      · rw [ih, setIdx_length]
      · exact ih store _

theorem mergeFold_fst_start (g : ℚ) (is : List ℕ) (store : List TimeRange)
    (acc : List ℕ) (j : ℕ) (d : TimeRange) :
    ((mergeFold g is store acc).1.getD j d).start = (store.getD j d).start := by
  induction is generalizing store acc with
  | nil => rfl
  | cons i is' ih =>
    rcases acc with _ | ⟨last, accT⟩
    · exact ih store [i]
    · rw [mergeFold]
      split_ifs
      · rw [ih]
        by_cases hj : last = j
        · subst hj
          by_cases hlt : last < store.length
          · rw [getD_setIdx_self _ _ _ _ hlt]
            simp [List.getD_eq_getElem?_getD, List.getElem?_eq_getElem hlt]
          · rw [setIdx_oob _ _ _ (by omega)]
        · rw [getD_setIdx_ne _ _ _ _ _ hj]
      · exact ih store _

theorem mergeFold_spec (g : ℚ) (is : List ℕ) :
    ∀ (store : List TimeRange) (last : ℕ) (accT : List ℕ),
      is.Nodup → last ∉ is → last < store.length →
      (∀ j ∈ accT, j ∉ is ∧ j ≠ last) →
      (∀ i ∈ is, i < store.length) →
      ((mergeFold g is store (last :: accT)).2.reverse.map
          (fun i => (mergeFold g is store (last :: accT)).1.getD i defaultRange))
        = (accT.reverse.map (fun i => store.getD i defaultRange))
          ++ mergeVals g (store.getD last defaultRange)
              (is.map (fun i => store.getD i defaultRange)) := by
  induction is with
  | nil =>
    intro store last accT _ _ _ _ _
    simp [mergeFold, mergeVals]
  | cons i is' ih =>
    intro store last accT hnd hlast hlt hacc hbound
    have hlast_i : last ≠ i := fun h => hlast (h ▸ List.mem_cons_self i is')
    have hlast_is' : last ∉ is' := fun h => hlast (List.mem_cons_of_mem i h)
    have hnd' : is'.Nodup := (List.nodup_cons.mp hnd).2
    have hi_is' : i ∉ is' := (List.nodup_cons.mp hnd).1
    rw [mergeFold]
    by_cases hcond : (store.getD i defaultRange).start
        ≤ (store.getD last defaultRange).«end» + g
    · simp only [if_pos hcond]
      set newR : TimeRange :=
        ⟨(store.getD last defaultRange).start,
          max (store.getD last defaultRange).«end» (store.getD i defaultRange).«end»⟩
        with hnewR
      have ihh := ih (setIdx store last newR) last accT hnd' hlast_is'
        (by rw [setIdx_length]; exact hlt)
        (fun j hj => ⟨fun hmem => ((hacc j hj).1) (List.mem_cons_of_mem i hmem),
          (hacc j hj).2⟩)
        (fun k hk => by
          rw [setIdx_length]; exact hbound k (List.mem_cons_of_mem i hk))
      rw [ihh]
      have hmapaccT : accT.reverse.map
            (fun j => (setIdx store last newR).getD j defaultRange)
          = accT.reverse.map (fun j => store.getD j defaultRange) :=
        List.map_congr_left (fun j hj =>
          getD_setIdx_ne _ _ _ _ _ (Ne.symm ((hacc j (List.mem_reverse.mp hj)).2)))
      have hmapis : is'.map (fun j => (setIdx store last newR).getD j defaultRange)
          = is'.map (fun j => store.getD j defaultRange) :=
        List.map_congr_left (fun j hj =>
          getD_setIdx_ne _ _ _ _ _ (fun hh => hlast_is' (hh ▸ hj)))
      rw [hmapaccT, hmapis, getD_setIdx_self _ _ _ _ hlt]
      rw [List.map_cons, mergeVals, if_pos hcond]
    · simp only [if_neg hcond]
      have ihh := ih store i (last :: accT) hnd' hi_is'
        (hbound i (List.mem_cons_self i is'))
        (fun j hj => by
          rcases List.mem_cons.mp hj with hj1 | hj2
          · exact hj1 ▸ ⟨hlast_is', hlast_i⟩
          · exact ⟨fun hmem => ((hacc j hj2).1) (List.mem_cons_of_mem i hmem),
              fun hh => ((hacc j hj2).1) (hh ▸ List.mem_cons_self i is')⟩)
        (fun k hk => hbound k (List.mem_cons_of_mem i hk))
      rw [ihh]
      rw [List.map_cons, mergeVals, if_neg hcond]
      simp [List.map_append]

theorem map_getD_range (l : List α) (d : α) :
    (List.range l.length).map (fun i => l.getD i d) = l := by
  induction l with
  | nil => rfl
  | cons x xs ih =>
    have h2 : ((fun i => (x :: xs).getD i d) ∘ Nat.succ) = (fun i => xs.getD i d) := rfl
    rw [List.length_cons, List.range_succ_eq_map, List.map_cons, List.map_map, h2, ih]
    rfl

theorem mergeOverlappingRanges_snd_eq (ranges : List TimeRange) (g : ℚ)
    (h : ranges ≠ []) :
    ∃ v0 vrest,
      (v0 :: vrest).Perm ranges
      ∧ (v0 :: vrest).Pairwise (fun x y => x.start ≤ y.start)
      ∧ (mergeOverlappingRanges ranges g).2 = mergeVals g v0 vrest := by
  have hlen : ranges.length ≠ 0 := by simpa using h
  set le : ℕ → ℕ → Bool := fun i j =>
    decide ((ranges.getD i defaultRange).start ≤ (ranges.getD j defaultRange).start)
    with hle
  have hperm : List.Perm ((List.range ranges.length).mergeSort le)
      (List.range ranges.length) :=
    List.mergeSort_perm _ le
  have hnodup : ((List.range ranges.length).mergeSort le).Nodup :=
    hperm.nodup_iff.mpr (List.nodup_range ranges.length)
  have hbound : ∀ i ∈ (List.range ranges.length).mergeSort le, i < ranges.length := by
    intro i hi
    have : i ∈ List.range ranges.length := List.mem_mergeSort.mp hi
    simpa using this
  have hsorted : ((List.range ranges.length).mergeSort le).Pairwise
      (fun a b => le a b = true) :=
    List.sorted_mergeSort
      (fun a b c hab hbc => by
        simp only [hle, decide_eq_true_eq] at hab hbc ⊢
        exact le_trans hab hbc)
      (fun a b => by
        simp only [hle, Bool.or_eq_true, decide_eq_true_eq]
        exact le_total _ _)
      (List.range ranges.length)
  rcases hcase : (List.range ranges.length).mergeSort le with _ | ⟨i0, rest⟩
  · exfalso
    have := congrArg List.length hcase
    rw [List.length_mergeSort, List.length_range] at this
    exact hlen (by simpa using this)
  · refine ⟨ranges.getD i0 defaultRange,
      rest.map (fun i => ranges.getD i defaultRange), ?_, ?_, ?_⟩
    · have h1 : List.Perm ((i0 :: rest).map (fun i => ranges.getD i defaultRange))
          ((List.range ranges.length).map (fun i => ranges.getD i defaultRange)) :=
        List.Perm.map _ (hcase ▸ hperm)
      rw [map_getD_range] at h1
      simpa using h1
    · have hp := hcase ▸ hsorted
      rw [show (ranges.getD i0 defaultRange
            :: rest.map (fun i => ranges.getD i defaultRange))
          = (i0 :: rest).map (fun i => ranges.getD i defaultRange) from rfl,
        List.pairwise_map]
      exact hp.imp (fun hab => by simpa [hle] using hab)
    · rw [mergeOverlappingRanges]
      rw [if_neg hlen]
      rw [← hle, hcase]
      rw [hcase] at hnodup hbound
      have hspec := mergeFold_spec g rest ranges i0 []
        (List.nodup_cons.mp hnodup).2
        (List.nodup_cons.mp hnodup).1
        (hbound i0 (List.mem_cons_self i0 rest))
        (by intro j hj; simp at hj)
        (fun k hk => hbound k (List.mem_cons_of_mem i0 hk))
      simpa using hspec

theorem mergeVals_head (g : ℚ) (rs : List TimeRange) :
    ∀ cur : TimeRange, ∃ e tl, mergeVals g cur rs = ⟨cur.start, e⟩ :: tl
      ∧ cur.«end» ≤ e := by
  induction rs with
  | nil => intro cur; exact ⟨cur.«end», [], rfl, le_refl _⟩
  | cons r rs' ih =>
    intro cur
    rw [mergeVals]
    by_cases hcond : r.start ≤ cur.«end» + g
    · rw [if_pos hcond]
      obtain ⟨e, tl, heq, hle⟩ := ih ⟨cur.start, max cur.«end» r.«end»⟩
      exact ⟨e, tl, heq, le_trans (le_max_left _ _) hle⟩
    · rw [if_neg hcond]
      exact ⟨cur.«end», mergeVals g r rs', rfl, le_refl _⟩

theorem mergeVals_chain (g : ℚ) (rs : List TimeRange) :
    ∀ cur : TimeRange, (∀ r ∈ rs, cur.start ≤ r.start) →
      rs.Pairwise (fun x y => x.start ≤ y.start) →
      (mergeVals g cur rs).Chain'
        (fun u v => u.start ≤ v.start ∧ u.«end» + g < v.start) := by
  induction rs with
  | nil => intro cur _ _; simp [mergeVals]
  | cons r rs' ih =>
    intro cur hsorted hpw
    rw [mergeVals]
    by_cases hcond : r.start ≤ cur.«end» + g
    · rw [if_pos hcond]
      refine ih ⟨cur.start, max cur.«end» r.«end»⟩ ?_ (List.pairwise_cons.mp hpw).2
      intro x hx
      exact hsorted x (List.mem_cons_of_mem r hx)
    · rw [if_neg hcond]
      rw [List.chain'_cons']
      constructor
      · intro y hy
        obtain ⟨e, tl, heq, _⟩ := mergeVals_head g rs' r
        rw [heq] at hy
        simp only [List.head?_cons, Option.mem_def, Option.some.injEq] at hy
        subst hy
        exact ⟨hsorted r (List.mem_cons_self r rs'), not_le.mp hcond⟩
      · exact ih r (fun x hx => (List.pairwise_cons.mp hpw).1 x hx)
          (List.pairwise_cons.mp hpw).2

theorem mergeVals_covers (g : ℚ) (rs : List TimeRange) :
    ∀ cur : TimeRange, (∀ r ∈ rs, cur.start ≤ r.start) →
      rs.Pairwise (fun x y => x.start ≤ y.start) →
      ∀ x ∈ cur :: rs, ∃ o ∈ mergeVals g cur rs,
        o.start ≤ x.start ∧ x.«end» ≤ o.«end» := by
  induction rs with
  | nil =>
    intro cur _ _ x hx
    rcases List.mem_cons.mp hx with h | h
    · subst h; exact ⟨x, by simp [mergeVals]⟩
    · simp at h
  | cons r rs' ih =>
    intro cur hsorted hpw x hx
    rw [mergeVals]
    by_cases hcond : r.start ≤ cur.«end» + g
    · rw [if_pos hcond]
      set cur' : TimeRange := ⟨cur.start, max cur.«end» r.«end»⟩ with hcur'
      have hsorted' : ∀ y ∈ rs', cur'.start ≤ y.start := fun y hy =>
        hsorted y (List.mem_cons_of_mem r hy)
      have hpw' := (List.pairwise_cons.mp hpw).2
      rcases List.mem_cons.mp hx with h | h
      · subst h
        obtain ⟨o, ho, h1, h2⟩ := ih cur' hsorted' hpw' cur'
          (List.mem_cons_self cur' rs')
        exact ⟨o, ho, by simpa [hcur'] using h1,
          le_trans (le_max_left _ _) (by simpa [hcur'] using h2)⟩
      · rcases List.mem_cons.mp h with h' | h'
        · subst h'
          obtain ⟨o, ho, h1, h2⟩ := ih cur' hsorted' hpw' cur'
            (List.mem_cons_self cur' rs')
          refine ⟨o, ho, le_trans (by simpa [hcur'] using h1)
            (hsorted x (List.mem_cons_self x rs')), ?_⟩
          exact le_trans (le_max_right _ _) (by simpa [hcur'] using h2)
        · obtain ⟨o, ho, h1, h2⟩ := ih cur' hsorted' hpw' x
            (List.mem_cons_of_mem cur' h')
          exact ⟨o, ho, h1, h2⟩
    · rw [if_neg hcond]
      rcases List.mem_cons.mp hx with h | h
      · subst h
        exact ⟨x, List.mem_cons_self _ _, le_refl _, le_refl _⟩
      · obtain ⟨o, ho, h1, h2⟩ := ih r (fun y hy => (List.pairwise_cons.mp hpw).1 y hy)
          (List.pairwise_cons.mp hpw).2 x h
        exact ⟨o, List.mem_cons_of_mem _ ho, h1, h2⟩

theorem mergeVals_endpoints (g : ℚ) (rs : List TimeRange) :
    ∀ cur : TimeRange, ∀ o ∈ mergeVals g cur rs,
      (∃ x ∈ cur :: rs, x.start = o.start) ∧ (∃ x ∈ cur :: rs, x.«end» = o.«end») := by
  induction rs with
  | nil =>
    intro cur o ho
    rw [mergeVals] at ho
    rcases List.mem_singleton.mp ho with rfl
    exact ⟨⟨o, List.mem_cons_self _ _, rfl⟩, ⟨o, List.mem_cons_self _ _, rfl⟩⟩
  | cons r rs' ih =>
    intro cur o ho
    rw [mergeVals] at ho
    by_cases hcond : r.start ≤ cur.«end» + g
    · rw [if_pos hcond] at ho
      obtain ⟨⟨x1, hx1, he1⟩, ⟨x2, hx2, he2⟩⟩ := ih ⟨cur.start, max cur.«end» r.«end»⟩ o ho
      constructor
      · rcases List.mem_cons.mp hx1 with h | h
        · subst h
          exact ⟨cur, List.mem_cons_self _ _, he1⟩
        · exact ⟨x1, List.mem_cons_of_mem _ (List.mem_cons_of_mem _ h), he1⟩
      · rcases List.mem_cons.mp hx2 with h | h
        · subst h
          rcases max_choice cur.«end» r.«end» with hm | hm
          · exact ⟨cur, List.mem_cons_self _ _, by rw [← he2]; exact hm.symm⟩
          · exact ⟨r, List.mem_cons_of_mem _ (List.mem_cons_self _ _),
              by rw [← he2]; exact hm.symm⟩
        · exact ⟨x2, List.mem_cons_of_mem _ (List.mem_cons_of_mem _ h), he2⟩
    · rw [if_neg hcond] at ho
      rcases List.mem_cons.mp ho with h | h
      · subst h
        exact ⟨⟨o, List.mem_cons_self _ _, rfl⟩, ⟨o, List.mem_cons_self _ _, rfl⟩⟩
      · obtain ⟨⟨x1, hx1, he1⟩, ⟨x2, hx2, he2⟩⟩ := ih r o h
        exact ⟨⟨x1, List.mem_cons_of_mem _ hx1, he1⟩,
          ⟨x2, List.mem_cons_of_mem _ hx2, he2⟩⟩

theorem natToCharsGo_congr (n : ℕ) :
    ∀ f1 f2, n < f1 → n < f2 → natToCharsGo f1 n = natToCharsGo f2 n := by
  induction n using Nat.strong_induction_on with
  | _ n ih =>
    intro f1 f2 h1 h2
    rcases f1 with _ | f1'
    · omega
    rcases f2 with _ | f2'
    · omega
    by_cases hn : n < 10
    · simp [natToCharsGo, hn]
    · have hdivlt : n / 10 < n := Nat.div_lt_self (by omega) (by omega)
      simp only [natToCharsGo, if_neg hn]
      rw [ih (n / 10) hdivlt f1' f2' (by omega) (by omega)]

theorem natToChars_lt10 (n : ℕ) (h : n < 10) : natToChars n = [digitChar n] := by
  simp [natToChars, natToCharsGo, h]

theorem natToChars_ge10 (n : ℕ) (h : 10 ≤ n) :
    natToChars n = natToChars (n / 10) ++ [digitChar (n % 10)] := by
  have hdivlt : n / 10 < n := Nat.div_lt_self (by omega) (by omega)
  have h1 : natToChars n = natToCharsGo n (n / 10) ++ [digitChar (n % 10)] := by
    rw [natToChars]
    rcases n with _ | n'
    · omega
    · simp only [natToCharsGo, if_neg (by omega : ¬ n' + 1 < 10)]
  rw [h1, natToChars,
    natToCharsGo_congr (n / 10) n (n / 10 + 1) hdivlt (Nat.lt_succ_self _)]

theorem charVal_digitChar (d : ℕ) (h : d < 10) : charVal (digitChar d) = d := by
  interval_cases d <;> rfl

theorem isDigit_digitChar (d : ℕ) (h : d < 10) : (digitChar d).isDigit = true := by
  interval_cases d <;> rfl

theorem digitsToNat_append_singleton (xs : List Char) (c : Char) :
    digitsToNat (xs ++ [c]) = 10 * digitsToNat xs + charVal c := by
  rw [digitsToNat, digitsToNat, List.foldl_append]
  rfl

theorem digitsToNat_natToChars (n : ℕ) : digitsToNat (natToChars n) = n := by
  induction n using Nat.strong_induction_on with
  | _ n ih =>
    by_cases hn : n < 10
    · rw [natToChars_lt10 n hn]
      simp [digitsToNat, charVal_digitChar n hn]
    · rw [natToChars_ge10 n (by omega), digitsToNat_append_singleton,
        ih (n / 10) (Nat.div_lt_self (by omega) (by omega)),
        charVal_digitChar _ (Nat.mod_lt _ (by omega))]
      omega

theorem natToChars_all_digits (n : ℕ) : ∀ c ∈ natToChars n, c.isDigit = true := by
  induction n using Nat.strong_induction_on with
  | _ n ih =>
    intro c hc
    by_cases hn : n < 10
    · rw [natToChars_lt10 n hn] at hc
      rcases List.mem_singleton.mp hc with rfl
      exact isDigit_digitChar n hn
    · rw [natToChars_ge10 n (by omega)] at hc
      rcases List.mem_append.mp hc with h | h
      · exact ih (n / 10) (Nat.div_lt_self (by omega) (by omega)) c h
      · rcases List.mem_singleton.mp h with rfl
        exact isDigit_digitChar _ (Nat.mod_lt _ (by omega))

theorem natToChars_ne_nil (n : ℕ) : natToChars n ≠ [] := by
  by_cases hn : n < 10
  · rw [natToChars_lt10 n hn]; simp
  · rw [natToChars_ge10 n (by omega)]; simp

theorem length_natToChars_le (k : ℕ) (hk : 1 ≤ k) :
    ∀ n, n < 10 ^ k → (natToChars n).length ≤ k := by
  induction k with
  | zero => omega
  | succ k' ihk =>
    intro n hn
    by_cases hsmall : n < 10
    · rw [natToChars_lt10 n hsmall]
      simp
    · have h1 : 1 ≤ k' := by
        by_contra hcon
        have : k' = 0 := by omega
        subst this
        simp at hn
        omega
      rw [natToChars_ge10 n (by omega), List.length_append]
      have hdiv : n / 10 < 10 ^ k' := by
        rw [Nat.div_lt_iff_lt_mul (by omega)]
        calc n < 10 ^ (k' + 1) := hn
        _ = 10 ^ k' * 10 := by ring
      have := ihk h1 (n / 10) hdiv
      simp only [List.length_cons, List.length_nil]
      omega

theorem digitsToNat_replicate_zero (z : ℕ) (ds : List Char) :
    digitsToNat (List.replicate z '0' ++ ds) = digitsToNat ds := by
  induction z with
  | zero => simp
  | succ z' ih =>
    rw [List.replicate_succ, List.cons_append]
    show List.foldl _ (10 * 0 + charVal '0') _ = _
    rw [charVal_d0]
    exact ih

theorem takeWhile_all_append (p : Char → Bool) (ds rest : List Char)
    (h : ∀ c ∈ ds, p c = true) :
    (ds ++ rest).takeWhile p = ds ++ rest.takeWhile p := by
  induction ds with
  | nil => simp
  | cons x xs ih =>
    rw [List.cons_append, List.takeWhile_cons_of_pos (h x (List.mem_cons_self x xs)),
      List.cons_append, ih (fun c hc => h c (List.mem_cons_of_mem x hc))]

theorem dropWhile_all_append (p : Char → Bool) (ds rest : List Char)
    (h : ∀ c ∈ ds, p c = true) :
    (ds ++ rest).dropWhile p = rest.dropWhile p := by
  induction ds with
  | nil => simp
  | cons x xs ih =>
    rw [List.cons_append, List.dropWhile_cons_of_pos (h x (List.mem_cons_self x xs)),
      ih (fun c hc => h c (List.mem_cons_of_mem x hc))]

theorem takeWhile_all (p : Char → Bool) (ds : List Char)
    (h : ∀ c ∈ ds, p c = true) : ds.takeWhile p = ds := by
  have := takeWhile_all_append p ds [] h
  simpa using this

theorem dropWhile_all (p : Char → Bool) (ds : List Char)
    (h : ∀ c ∈ ds, p c = true) : ds.dropWhile p = [] := by
  have := dropWhile_all_append p ds [] h
  simpa using this

theorem isDigit_ne_dash (c : Char) (h : c.isDigit = true) : c ≠ '-' := by
  intro hc; subst hc; simp [Char.isDigit] at h

theorem isDigit_ne_plus (c : Char) (h : c.isDigit = true) : c ≠ '+' := by
  intro hc; subst hc; simp [Char.isDigit] at h

theorem isDigit_ne_colon (c : Char) (h : c.isDigit = true) : c ≠ ':' := by
  intro hc; subst hc; simp [Char.isDigit] at h

theorem isDigit_ne_s (c : Char) (h : c.isDigit = true) : c ≠ 's' := by
  intro hc; subst hc; simp [Char.isDigit] at h

theorem splitSign_digits (cs : List Char) (hne : cs ≠ [])
    (h : ∀ c ∈ cs, c.isDigit = true) : splitSign cs = (1, cs) := by
  rcases cs with _ | ⟨c, rest⟩
  · exact absurd rfl hne
  · have hc := h c (List.mem_cons_self c rest)
    rw [splitSign, if_neg (isDigit_ne_dash c hc), if_neg (isDigit_ne_plus c hc)]

/-- `parseFloat` on an all-digit nonempty string yields its numeric value. -/
theorem jsParseFloat_digits (ds : List Char) (hne : ds ≠ [])
    (h : ∀ c ∈ ds, c.isDigit = true) :
    jsParseFloat ds = some (digitsToNat ds : ℚ) := by
  rw [jsParseFloat, splitSign_digits ds hne h]
  rw [jsParseFloatMag]
  simp only [takeWhile_all Char.isDigit ds h, dropWhile_all Char.isDigit ds h]
  rw [if_neg (by simp [hne])]
  show some (1 * ((digitsToNat ds : ℚ) + (digitsToNat [] : ℚ) / 10 ^ (0 : ℕ)))
    = some (digitsToNat ds : ℚ)
  norm_num [digitsToNat]

/-- `parseFloat` on `digits.digits` (integer part nonempty) yields the
mixed value. -/
theorem jsParseFloat_digits_frac (A B : List Char) (hAne : A ≠ [])
    (hA : ∀ c ∈ A, c.isDigit = true) (hB : ∀ c ∈ B, c.isDigit = true) :
    jsParseFloat (A ++ '.' :: B)
      = some ((digitsToNat A : ℚ) + (digitsToNat B : ℚ) / 10 ^ B.length) := by
  have hhead : splitSign (A ++ '.' :: B) = (1, A ++ '.' :: B) := by
    rcases A with _ | ⟨c, rest⟩
    · exact absurd rfl hAne
    · have hc := hA c (List.mem_cons_self c rest)
      rw [List.cons_append, splitSign, if_neg (isDigit_ne_dash c hc),
        if_neg (isDigit_ne_plus c hc)]
  rw [jsParseFloat, hhead, jsParseFloatMag]
  have htw : List.takeWhile Char.isDigit ('.' :: B) = [] :=
    List.takeWhile_cons_of_neg (by simp)
  have hdw : List.dropWhile Char.isDigit ('.' :: B) = '.' :: B :=
    List.dropWhile_cons_of_neg (by simp)
  simp only [takeWhile_all_append Char.isDigit A ('.' :: B) hA,
    dropWhile_all_append Char.isDigit A ('.' :: B) hA, htw, hdw, List.append_nil]
  rw [if_neg (by simp [hAne])]
  norm_num [takeWhile_all Char.isDigit B hB]

theorem splitOnChar_no_sep (sep : Char) (B : List Char)
    (h : ∀ c ∈ B, c ≠ sep) : splitOnChar sep B = [B] := by
  induction B with
  | nil => rfl
  | cons x xs ih =>
    rw [splitOnChar]
    rw [if_neg (h x (List.mem_cons_self x xs))]
    rw [ih (fun c hc => h c (List.mem_cons_of_mem x hc))]

theorem splitOnChar_two_parts (sep : Char) (A B : List Char)
    (hA : ∀ c ∈ A, c ≠ sep) (hB : ∀ c ∈ B, c ≠ sep) :
    splitOnChar sep (A ++ sep :: B) = [A, B] := by
  induction A with
  | nil =>
    rw [List.nil_append, splitOnChar, if_pos rfl,
      splitOnChar_no_sep sep B hB]
  | cons x xs ih =>
    rw [List.cons_append, splitOnChar,
      if_neg (hA x (List.mem_cons_self x xs)),
      ih (fun c hc => hA c (List.mem_cons_of_mem x hc))]

theorem pad3_facts (m : ℕ) (hm : m < 1000) :
    (padStartChars 3 '0' (natToChars m)).length = 3
    ∧ digitsToNat (padStartChars 3 '0' (natToChars m)) = m
    ∧ (∀ c ∈ padStartChars 3 '0' (natToChars m), c.isDigit = true)
    ∧ padStartChars 3 '0' (natToChars m) ≠ [] := by
  have hlen : (natToChars m).length ≤ 3 :=
    length_natToChars_le 3 (by norm_num) m (by omega)
  refine ⟨?_, ?_, ?_, ?_⟩
  · rw [padStartChars, List.length_append, List.length_replicate]
    omega
  · rw [padStartChars, digitsToNat_replicate_zero, digitsToNat_natToChars]
  · intro c hc
    rcases List.mem_append.mp hc with h | h
    · rcases List.eq_of_mem_replicate h with rfl
      rfl
    · exact natToChars_all_digits m c h
  · rw [padStartChars]
    intro hcon
    exact natToChars_ne_nil m (List.append_eq_nil.mp hcon).2

theorem jsParseFloat_padded_toFixed3Core (k : ℕ) :
    jsParseFloat (padStartChars 6 '0' (toFixed3Core k)) = some ((k : ℚ) / 1000) := by
  set pad3 := padStartChars 3 '0' (natToChars (k % 1000)) with hpad3
  obtain ⟨hp3len, hp3val, hp3dig, hp3ne⟩ := pad3_facts (k % 1000) (Nat.mod_lt _ (by omega))
  set z := 6 - (toFixed3Core k).length with hz
  set A := List.replicate z '0' ++ natToChars (k / 1000) with hA
  have hsplit : padStartChars 6 '0' (toFixed3Core k) = A ++ '.' :: pad3 := by
    rw [padStartChars, toFixed3Core, hA, ← hpad3, List.append_assoc]
    simp only [hz, toFixed3Core, hpad3]
  have hAne : A ≠ [] := by
    rw [hA]
    intro hcon
    exact natToChars_ne_nil (k / 1000) (List.append_eq_nil.mp hcon).2
  have hAdig : ∀ c ∈ A, c.isDigit = true := by
    intro c hc
    rcases List.mem_append.mp hc with h | h
    · rcases List.eq_of_mem_replicate h with rfl
      rfl
    · exact natToChars_all_digits _ c h
  have hAval : digitsToNat A = k / 1000 := by
    rw [hA, digitsToNat_replicate_zero, digitsToNat_natToChars]
  rw [hsplit, jsParseFloat_digits_frac A pad3 hAne hAdig hp3dig, hAval, hp3val, hp3len]
  have hk : ((1000 : ℚ)) * ((k / 1000 : ℕ) : ℚ) + ((k % 1000 : ℕ) : ℚ) = (k : ℚ) := by
    exact_mod_cast Nat.div_add_mod k 1000
  congr 1
  field_simp
  linarith [hk]

theorem toFixed3Core_chars (k : ℕ) :
    ∀ c ∈ toFixed3Core k, c.isDigit = true ∨ c = '.' := by
  intro c hc
  rw [toFixed3Core] at hc
  rcases List.mem_append.mp hc with h | h
  · exact Or.inl (natToChars_all_digits _ c h)
  · rcases List.mem_cons.mp h with h' | h'
    · exact Or.inr h'
    · obtain ⟨_, _, hdig, _⟩ := pad3_facts (k % 1000) (Nat.mod_lt _ (by omega))
      exact Or.inl (hdig c h')

theorem padded_toFixed3Core_chars (k : ℕ) :
    ∀ c ∈ padStartChars 6 '0' (toFixed3Core k), c.isDigit = true ∨ c = '.' := by
  intro c hc
  rw [padStartChars] at hc
  rcases List.mem_append.mp hc with h | h
  · rcases List.eq_of_mem_replicate h with rfl
    exact Or.inl rfl
  · exact toFixed3Core_chars k c h

theorem padded_toFixed3Core_getLast (k : ℕ) :
    ∃ c, (padStartChars 6 '0' (toFixed3Core k)).getLast? = some c ∧ c.isDigit = true := by
  obtain ⟨hp3len, _, hp3dig, hp3ne⟩ := pad3_facts (k % 1000) (Nat.mod_lt _ (by omega))
  rcases hlast : (padStartChars 3 '0' (natToChars (k % 1000))).getLast? with _ | ⟨c⟩
  · exact absurd (List.getLast?_eq_none_iff.mp hlast) hp3ne
  · have hdotlast : (('.' : Char) :: padStartChars 3 '0' (natToChars (k % 1000))).getLast?
        = some c := by
      rw [show (('.' : Char) :: padStartChars 3 '0' (natToChars (k % 1000)))
          = ['.'] ++ padStartChars 3 '0' (natToChars (k % 1000)) from rfl,
        List.getLast?_append, hlast]
      rfl
    refine ⟨c, ?_, ?_⟩
    · rw [padStartChars, toFixed3Core, List.getLast?_append, List.getLast?_append,
        hdotlast]
      rfl
    · have h3 : (padStartChars 3 '0' (natToChars (k % 1000))).getLast hp3ne = c :=
        Option.some.inj ((List.getLast?_eq_getLast _ hp3ne).symm.trans hlast)
      rw [← h3]
      exact hp3dig _ (List.getLast_mem hp3ne)

theorem parseTimeChars_format (M' k : ℕ) :
    parseTimeChars (natToChars M' ++ ':' :: padStartChars 6 '0' (toFixed3Core k))
      = some ((M' : ℚ) * 60 + (k : ℚ) / 1000) := by
  set SS := padStartChars 6 '0' (toFixed3Core k) with hSS
  obtain ⟨c, hclast, hcdig⟩ := padded_toFixed3Core_getLast k
  have hlast : (natToChars M' ++ ':' :: SS).getLast? = some c := by
    rw [List.getLast?_append,
      show ((':' : Char) :: SS) = [':'] ++ SS from rfl, List.getLast?_append, hSS, hclast]
    rfl
  have hend : endsWithChar (natToChars M' ++ ':' :: SS) 's' = false := by
    rw [endsWithChar, hlast]
    simp [isDigit_ne_s c hcdig]
  have hmemcolon : (':' : Char) ∈ natToChars M' ++ ':' :: SS :=
    List.mem_append_right _ (List.mem_cons_self _ _)
  have hcont : (natToChars M' ++ ':' :: SS).contains ':' = true := by
    simp [List.contains, List.elem_eq_mem, hmemcolon]
  have hval1 : jsParseFloat (natToChars M') = some ((M' : ℚ)) := by
    rw [jsParseFloat_digits _ (natToChars_ne_nil M') (natToChars_all_digits M'),
      digitsToNat_natToChars]
  have hval2 : jsParseFloat SS = some ((k : ℚ) / 1000) := by
    rw [hSS]
    exact jsParseFloat_padded_toFixed3Core k
  have hsplitcs : splitOnChar ':' (natToChars M' ++ ':' :: SS) = [natToChars M', SS] :=
    splitOnChar_two_parts ':' _ _
      (fun d hd => isDigit_ne_colon d (natToChars_all_digits M' d hd))
      (fun d hd => by
        rcases padded_toFixed3Core_chars k d (hSS ▸ hd) with h | h
        · exact isDigit_ne_colon d h
        · subst h; decide)
  rw [parseTimeChars, if_neg (by simp [hend]), if_pos hcont, hsplitcs]
  simp only [List.map_cons, List.map_nil, List.length_cons, List.length_nil,
    if_true]
  simp only [List.getD_cons_zero, List.getD_cons_succ]
  rw [hval1, hval2]
  rfl

theorem parseTime_formatTimestamp_eval (t : ℚ) (h0 : 0 ≤ t) (h1 : t < 3600) :
    parseTime (JSVal.str (formatTimestamp t))
      = some ((⌊t / 60⌋ : ℚ) * 60 + ((⌊(t - 60 * ⌊t / 60⌋) * 1000 + 1 / 2⌋ : ℤ) : ℚ) / 1000) := by
  have hM0 : (0 : ℤ) ≤ ⌊t / 60⌋ := Int.floor_nonneg.mpr (by positivity)
  have hMle : ((⌊t / 60⌋ : ℤ) : ℚ) ≤ t / 60 := Int.floor_le _
  have hs0 : (0 : ℚ) ≤ t - 60 * ⌊t / 60⌋ := by
    have : (60 : ℚ) * ⌊t / 60⌋ ≤ 60 * (t / 60) := by linarith
    have h60 : (60 : ℚ) * (t / 60) = t := by ring
    linarith
  have hn0 : (0 : ℤ) ≤ ⌊(t - 60 * ⌊t / 60⌋) * 1000 + 1 / 2⌋ :=
    Int.floor_nonneg.mpr (by positivity)
  have hfloor3600 : (⌊t / 3600⌋ : ℤ) = 0 := by
    rw [Int.floor_eq_zero_iff]
    constructor
    · positivity
    · rw [div_lt_one (by norm_num)]
      linarith
  have htr3600 : ratTrunc (t / 3600) = 0 := by
    rw [ratTrunc, if_neg (not_lt.mpr (by positivity)), hfloor3600]
  have hmod3600 : jsMod t 3600 = t := by
    rw [jsMod, htr3600]
    push_cast
    ring
  have htr60 : ratTrunc (t / 60) = ⌊t / 60⌋ := by
    rw [ratTrunc, if_neg (not_lt.mpr (by positivity))]
  have hmod60 : jsMod t 60 = t - 60 * ⌊t / 60⌋ := by
    rw [jsMod, htr60]
  have hfmt : formatTimestamp t
      = String.mk (natToChars (⌊t / 60⌋ : ℤ).toNat
        ++ ':' :: padStartChars 6 '0'
            (toFixed3Core (⌊(t - 60 * ⌊t / 60⌋) * 1000 + 1 / 2⌋ : ℤ).toNat)) := by
    rw [formatTimestamp]
    simp only [hmod3600, hmod60, hfloor3600]
    rw [if_neg (by norm_num)]
    rw [intToChars, if_neg (by omega), toFixed3]
    rw [if_neg (by omega)]
  rw [hfmt]
  show parseTimeChars (natToChars (⌊t / 60⌋ : ℤ).toNat
      ++ ':' :: padStartChars 6 '0'
          (toFixed3Core (⌊(t - 60 * ⌊t / 60⌋) * 1000 + 1 / 2⌋ : ℤ).toNat)) = _
  rw [parseTimeChars_format]
  have e1 : ((⌊t / 60⌋.toNat : ℕ) : ℚ) = ((⌊t / 60⌋ : ℤ) : ℚ) := by
    exact_mod_cast congrArg (fun z : ℤ => (z : ℚ)) (Int.toNat_of_nonneg hM0)
  have e2 : (((⌊(t - 60 * ⌊t / 60⌋) * 1000 + 1 / 2⌋ : ℤ).toNat : ℕ) : ℚ)
      = ((⌊(t - 60 * ⌊t / 60⌋) * 1000 + 1 / 2⌋ : ℤ) : ℚ) := by
    exact_mod_cast congrArg (fun z : ℤ => (z : ℚ)) (Int.toNat_of_nonneg hn0)
  rw [e1, e2]

/-- C2 counterexample: the claim says an unparseable timestamp string yields
`0`; on the code, `parseTime("abc")` is `parseFloat("abc")`, which is `NaN`
(modelled `none`), not `0`. -/
theorem c2_counterexample :
    parseTime (JSVal.str ("abc")) ≠ some 0
    ∧ parseTime (JSVal.str ("abc")) = none := by
  constructor
  · norm_num +decide [parseTime, parseTimeChars, jsParseFloat, jsParseFloatMag,
      endsWithChar, splitSign]
  · norm_num +decide [parseTime, parseTimeChars, jsParseFloat, jsParseFloatMag,
      endsWithChar, splitSign]

/-- C2 (amended): for every string on which float parsing yields `NaN`,
`parseTime` does not fail, but it returns `NaN` (not `0`): the `NaN`
propagates through every branch of the string case.  (`parseTime` returns
`0` only for arguments that are neither numbers nor strings.) -/
theorem c2_parse_time_nan_propagates (s : String)
    (h : jsParseFloat s.data = none) :
    parseTime (JSVal.str s) = none ∧ parseTime JSVal.other = some 0 := by
  exact ⟨parseTimeChars_none_of_parseFloat_none s.data h, rfl⟩

/-- C2 witness: the amended claim at the concrete input `"abc"`. -/
theorem c2_witness :
    parseTime (JSVal.str ("abc")) = none ∧ parseTime JSVal.other = some 0 :=
  c2_parse_time_nan_propagates ("abc") (by decide)

/-- C9: for every `t` in `[0, 3600)`, rendering `t` with `formatTimestamp`
(the `M:SS.mmm` branch) and re-parsing the result with the Timestamp
Normalizer recovers `t` to within `0.001` seconds. -/
theorem c9_roundtrip (t : ℚ) (h0 : 0 ≤ t) (h1 : t < 3600) :
    ∃ v, parseTime (JSVal.str (formatTimestamp t)) = some v
      ∧ |v - t| ≤ 1 / 1000 := by
  refine ⟨(⌊t / 60⌋ : ℚ) * 60
    + ((⌊(t - 60 * ⌊t / 60⌋) * 1000 + 1 / 2⌋ : ℤ) : ℚ) / 1000,
    parseTime_formatTimestamp_eval t h0 h1, ?_⟩
  have hfl : ((⌊(t - 60 * ⌊t / 60⌋) * 1000 + 1 / 2⌋ : ℤ) : ℚ)
      ≤ (t - 60 * ⌊t / 60⌋) * 1000 + 1 / 2 := Int.floor_le _
  have hfu : (t - 60 * ⌊t / 60⌋) * 1000 + 1 / 2
      < ((⌊(t - 60 * ⌊t / 60⌋) * 1000 + 1 / 2⌋ : ℤ) : ℚ) + 1 := Int.lt_floor_add_one _
  rw [abs_le]
  constructor <;> linarith

/-- C9 witness: the round-trip property at `t = 90.5`. -/
theorem c9_witness :
    ∃ v, parseTime (JSVal.str (formatTimestamp (181 / 2))) = some v
      ∧ |v - 181 / 2| ≤ 1 / 1000 :=
  c9_roundtrip (181 / 2) (by norm_num) (by norm_num)

/-- C4 counterexample: the claim says `mergeOverlappingRanges` leaves its
input objects unchanged; on the inputs `{0,5}, {3,7}` with gap 2 the merge
writes `end = 7` into the caller's first range object through the
shallow-copied reference. -/
theorem c4_counterexample :
    mergeOverlappingRanges [⟨0, 5⟩, ⟨3, 7⟩] 2 = ([⟨0, 7⟩, ⟨3, 7⟩], [⟨0, 7⟩])
    ∧ (⟨0, 7⟩ : TimeRange) ≠ ⟨0, 5⟩ := by
  constructor
  · rw [mergeOverlappingRanges]
    norm_num
    rw [List.mergeSort_of_sorted (by decide), show List.range 2 = [0, 1] from rfl]
    norm_num [mergeFold, setIdx]
  · intro hcon
    have := congrArg TimeRange.«end» hcon
    norm_num at this

/-- C4 (amended): the merge never changes any input object's `start` field
and never resizes the input array, but it may mutate the `end` fields of
input range objects in place (the counterexample exhibits such a
mutation). -/
theorem c4_merge_preserves_start (ranges : List TimeRange) (g : ℚ) :
    (mergeOverlappingRanges ranges g).1.length = ranges.length
    ∧ ∀ j, ((mergeOverlappingRanges ranges g).1.getD j defaultRange).start
        = (ranges.getD j defaultRange).start := by
  rw [mergeOverlappingRanges]
  split_ifs with h
  · exact ⟨rfl, fun j => rfl⟩
  · rcases hcase : (List.range ranges.length).mergeSort
        (fun i j =>
          decide ((ranges.getD i defaultRange).start
            ≤ (ranges.getD j defaultRange).start)) with _ | ⟨i0, rest⟩
    · exact ⟨rfl, fun j => rfl⟩
    · exact ⟨mergeFold_fst_length g rest ranges [i0],
        fun j => mergeFold_fst_start g rest ranges [i0] j defaultRange⟩

/-- C5 counterexample: with gap threshold 2 the inputs `[0,1]` and `[3,4]`
merge to the single range `[0,4]`, which covers the point `2` even though no
input range does — so the output does not cover exactly the union of the
inputs. -/
theorem c5_counterexample :
    (mergeOverlappingRanges [⟨0, 1⟩, ⟨3, 4⟩] 2).2 = [⟨0, 4⟩]
    ∧ ((0 : ℚ) ≤ 2 ∧ (2 : ℚ) ≤ 4)
    ∧ ¬(((0 : ℚ) ≤ 2 ∧ (2 : ℚ) ≤ 1) ∨ ((3 : ℚ) ≤ 2 ∧ (2 : ℚ) ≤ 4)) := by
  refine ⟨?_, by norm_num, by norm_num⟩
  rw [mergeOverlappingRanges]
  norm_num
  rw [List.mergeSort_of_sorted (by decide), show List.range 2 = [0, 1] from rfl]
  norm_num [mergeFold, setIdx]

/-- C5 (amended): the merged output is sorted ascending by start with every
gap between adjacent output ranges strictly greater than the threshold; it
covers at least the union of the inputs, and every output range starts at
the start of some input range and ends at the end of some input range (so
the only extra covered points are the bridged gaps); the tolerance is
inclusive (two ranges exactly `g` apart merge into one); and merging the
empty list yields the empty list. -/
theorem c5_merge_invariants (ranges : List TimeRange) (g : ℚ) :
    ((mergeOverlappingRanges ranges g).2.Chain'
        (fun u v => u.start ≤ v.start ∧ u.«end» + g < v.start))
    ∧ (∀ r ∈ ranges, ∃ o ∈ (mergeOverlappingRanges ranges g).2,
        o.start ≤ r.start ∧ r.«end» ≤ o.«end»)
    ∧ (∀ o ∈ (mergeOverlappingRanges ranges g).2,
        (∃ r ∈ ranges, r.start = o.start) ∧ (∃ r ∈ ranges, r.«end» = o.«end»))
    ∧ mergeOverlappingRanges [] g = ([], [])
    ∧ (∀ a b d : ℚ, 0 ≤ g → a ≤ b →
        (mergeOverlappingRanges [⟨a, b⟩, ⟨b + g, d⟩] g).2 = [⟨a, max b d⟩]) := by
  have h2range : ∀ a b d : ℚ, 0 ≤ g → a ≤ b →
      (mergeOverlappingRanges [⟨a, b⟩, ⟨b + g, d⟩] g).2 = [⟨a, max b d⟩] := by
    intro a b d hg hab
    rw [mergeOverlappingRanges]
    rw [if_neg (by norm_num)]
    rw [show List.range ([(⟨a, b⟩ : TimeRange), ⟨b + g, d⟩] : List TimeRange).length
        = [0, 1] from rfl]
    rw [List.mergeSort_of_sorted (by
      refine List.pairwise_cons.mpr ⟨?_, by simp⟩
      intro j hj
      rcases List.mem_singleton.mp hj with rfl
      simp only [List.getD_cons_zero, List.getD_cons_succ, decide_eq_true_eq]
      linarith)]
    simp only [mergeFold, List.getD_cons_zero, List.getD_cons_succ]
    rw [if_pos (by simp)]
    simp [setIdx]
  by_cases hemp : ranges = []
  · subst hemp
    refine ⟨?_, ?_, ?_, rfl, h2range⟩
    · rw [show mergeOverlappingRanges [] g = ([], []) from rfl]
      simp
    · intro r hr
      simp at hr
    · intro o ho
      rw [show mergeOverlappingRanges [] g = ([], []) from rfl] at ho
      simp at ho
  · obtain ⟨v0, vrest, hperm, hpw, heq⟩ := mergeOverlappingRanges_snd_eq ranges g hemp
    have hs0 : ∀ r ∈ vrest, v0.start ≤ r.start := (List.pairwise_cons.mp hpw).1
    have hpw' := (List.pairwise_cons.mp hpw).2
    refine ⟨?_, ?_, ?_, rfl, h2range⟩
    · rw [heq]
      exact mergeVals_chain g vrest v0 hs0 hpw'
    · intro r hr
      have hr' : r ∈ v0 :: vrest := hperm.mem_iff.mpr hr
      obtain ⟨o, ho, h1, h2⟩ := mergeVals_covers g vrest v0 hs0 hpw' r hr'
      exact ⟨o, heq ▸ ho, h1, h2⟩
    · intro o ho
      rw [heq] at ho
      obtain ⟨⟨x1, hx1, he1⟩, ⟨x2, hx2, he2⟩⟩ := mergeVals_endpoints g vrest v0 o ho
      exact ⟨⟨x1, hperm.mem_iff.mp hx1, he1⟩, ⟨x2, hperm.mem_iff.mp hx2, he2⟩⟩

/-- C5 witness: the amended invariants applied at the concrete inputs
`[0,1], [3,4]` with gap 2, and the inclusive-tolerance instance at
`a = 0, b = 1, d = 4`. -/
theorem c5_witness :
    ((mergeOverlappingRanges [⟨0, 1⟩, ⟨3, 4⟩] 2).2.Chain'
        (fun u v => u.start ≤ v.start ∧ u.«end» + 2 < v.start))
    ∧ (mergeOverlappingRanges [⟨0, 1⟩, ⟨1 + 2, 4⟩] 2).2 = [⟨0, max 1 4⟩] :=
  ⟨(c5_merge_invariants [⟨0, 1⟩, ⟨3, 4⟩] 2).1,
    (c5_merge_invariants [⟨0, 1⟩, ⟨3, 4⟩] 2).2.2.2.2 0 1 4 (by norm_num) (by norm_num)⟩

theorem jsGeQ_iff (n : Option ℚ) (q : ℚ) :
    jsGeQ n q = true ↔ ∃ v, n = some v ∧ v ≥ q := by
  cases n <;> simp [jsGeQ]

theorem jsLeQ_iff (n : Option ℚ) (q : ℚ) :
    jsLeQ n q = true ↔ ∃ v, n = some v ∧ v ≤ q := by
  cases n <;> simp [jsLeQ]

/-- C7: `findSegmentsByTimeRange` returns exactly the segments fully
contained in the query window (`start >= a` and `end <= b`), as a
subsequence of the transcript in original order; on the segments
`[{0,5},{4,10},{10,15}]` the query `(3, 12)` returns only `{4,10}` — full
containment, not mere overlap. -/
theorem c7_find_by_time_range (t : Transcript) (a b : ℚ) :
    (∀ s, s ∈ findSegmentsByTimeRange t a b ↔
      s ∈ t.segments ∧ (∃ v, s.start = some v ∧ v ≥ a)
        ∧ (∃ w, s.«end» = some w ∧ w ≤ b))
    ∧ List.Sublist (findSegmentsByTimeRange t a b) t.segments
    ∧ findSegmentsByTimeRange
        ⟨[⟨"", some 0, some 5, none, none⟩, ⟨"", some 4, some 10, none, none⟩,
          ⟨"", some 10, some 15, none, none⟩]⟩ 3 12
      = [⟨"", some 4, some 10, none, none⟩] := by
  refine ⟨?_, List.filter_sublist _, ?_⟩
  · intro s
    rw [findSegmentsByTimeRange, List.mem_filter, Bool.and_eq_true,
      jsGeQ_iff, jsLeQ_iff]
  · norm_num +decide [findSegmentsByTimeRange, jsGeQ, jsLeQ, List.filter]

/-- C7 witness: the containment example from the claim, by the theorem. -/
theorem c7_witness :
    findSegmentsByTimeRange
        ⟨[⟨"", some 0, some 5, none, none⟩, ⟨"", some 4, some 10, none, none⟩,
          ⟨"", some 10, some 15, none, none⟩]⟩ 3 12
      = [⟨"", some 4, some 10, none, none⟩] :=
  (c7_find_by_time_range
    ⟨[⟨"", some 0, some 5, none, none⟩, ⟨"", some 4, some 10, none, none⟩,
      ⟨"", some 10, some 15, none, none⟩]⟩ 3 12).2.2

/-- C6: on the transcript `A:[0,2], A:[2,4], B:[4,6], A:[6,8]`, selecting
the single `B` segment and expanding with `expandToSpeakerTurn = true` and
padding `p` yields exactly `[max 0 (4 - p), 6 + p]`: the expansion never
crosses into the neighbouring `A` speaker turns. -/
theorem c6_speaker_turn_expansion (p : ℚ) :
    expandToNaturalBoundaries
      [⟨"", some 4, some 6, some ("B"), none⟩]
      [⟨"", some 0, some 2, some ("A"), none⟩, ⟨"", some 2, some 4, some ("A"), none⟩,
        ⟨"", some 4, some 6, some ("B"), none⟩, ⟨"", some 6, some 8, some ("A"), none⟩]
      ⟨some p, some true⟩
      = some (some (max 0 (4 - p)), some (6 + p)) := by
  norm_num +decide [expandToNaturalBoundaries, jsMinList, jsMaxList, jsMin2,
    jsMax2, jsSub, jsAdd, truthyStr, jsEqNum, List.findIdx?, walkBackList,
    walkFwdList]

/-- C6 witness: the expansion at padding 1, by the theorem. -/
theorem c6_witness :
    expandToNaturalBoundaries
      [⟨"", some 4, some 6, some ("B"), none⟩]
      [⟨"", some 0, some 2, some ("A"), none⟩, ⟨"", some 2, some 4, some ("A"), none⟩,
        ⟨"", some 4, some 6, some ("B"), none⟩, ⟨"", some 6, some 8, some ("A"), none⟩]
      ⟨some 1, some true⟩
      = some (some (max 0 (4 - 1)), some (6 + 1)) :=
  c6_speaker_turn_expansion 1

/-- C3 counterexample: alias resolution is by JavaScript `||`, i.e. first
*truthy*, not first present: a raw segment with `start: 0, start_time: 5`
normalizes to start `5` (the falsy `0` is skipped), and `text: "",
transcript: "x"` normalizes to text `"x"` — contradicting the claimed
first-present resolution. -/
theorem c3_counterexample :
    (normalizeSegments
        [({ start := some (JSVal.num 0)
            start_time := some (JSVal.num 5) } : RawSegment)]).map (fun s => s.start) = [some 5]
    ∧ (normalizeSegments
        [({ text := some (""), transcript := some ("x") } : RawSegment)]).map
          (fun s => s.text) = [("x")]
    ∧ ¬((normalizeSegments
        [({ start := some (JSVal.num 0)
            start_time := some (JSVal.num 5) } : RawSegment)]).map (fun s => s.start) = [some 0]
      ∧ (normalizeSegments
        [({ text := some (""), transcript := some ("x") } : RawSegment)]).map
          (fun s => s.text) = [("")]) := by
  have h1 : (normalizeSegments
      [({ start := some (JSVal.num 0)
          start_time := some (JSVal.num 5) } : RawSegment)]).map (fun s => s.start) = [some 5] := by
    norm_num +decide [normalizeSegments, normalizeSegment, jsOrVal, jsOrValD,
      jsOrStr, jsOrStrD, truthyVal, truthyStr, parseTime]
  have h2 : (normalizeSegments
      [({ text := some (""), transcript := some ("x") } : RawSegment)]).map
        (fun s => s.text) = [("x")] := by
    norm_num +decide [normalizeSegments, normalizeSegment, jsOrVal, jsOrValD,
      jsOrStr, jsOrStrD, truthyVal, truthyStr, parseTime]
  refine ⟨h1, h2, ?_⟩
  rintro ⟨ha, _⟩
  rw [h1] at ha
  norm_num at ha

/-- C3 (amended): the Transcript Loader resolves each field from the first
*truthy* alias (JavaScript `||`): a present-but-falsy alias (`0`, `""`) is
skipped in favour of a later truthy one; the defaults `""` and `0` apply
when no alias is truthy. -/
theorem c3_alias_resolution_truthy (seg : RawSegment) :
    (∀ tt, seg.text = some tt → tt ≠ "" → (normalizeSegment seg).text = tt)
    ∧ (truthyStr seg.text = false → ∀ tt, seg.transcript = some tt → tt ≠ "" →
        (normalizeSegment seg).text = tt)
    ∧ (truthyStr seg.text = false → truthyStr seg.transcript = false →
        truthyStr seg.content = false → (normalizeSegment seg).text = "")
    ∧ (∀ q : ℚ, seg.start = some (JSVal.num q) → q ≠ 0 →
        (normalizeSegment seg).start = some q)
    ∧ (truthyVal seg.start = false → ∀ q : ℚ,
        seg.start_time = some (JSVal.num q) → q ≠ 0 →
        (normalizeSegment seg).start = some q)
    ∧ (truthyVal seg.start = false → truthyVal seg.start_time = false →
        truthyVal seg.startTime = false → (normalizeSegment seg).start = some 0) := by
  have orStr_pos : ∀ a b, truthyStr a = true → jsOrStr a b = a := by
    intro a b h; simp [jsOrStr, h]
  have orStr_neg : ∀ a b, truthyStr a = false → jsOrStr a b = b := by
    intro a b h; simp [jsOrStr, h]
  have orVal_pos : ∀ a b, truthyVal a = true → jsOrVal a b = a := by
    intro a b h; simp [jsOrVal, h]
  have orVal_neg : ∀ a b, truthyVal a = false → jsOrVal a b = b := by
    intro a b h; simp [jsOrVal, h]
  refine ⟨?_, ?_, ?_, ?_, ?_, ?_⟩
  · intro tt ht hne
    have h1 : truthyStr seg.text = true := by rw [ht]; simp [truthyStr, hne]
    simp only [normalizeSegment, orStr_pos _ _ h1]
    rw [ht]
    simp [jsOrStrD, truthyStr, hne]
  · intro hf tt ht hne
    have h2 : truthyStr seg.transcript = true := by rw [ht]; simp [truthyStr, hne]
    simp only [normalizeSegment, orStr_neg _ _ hf, orStr_pos _ _ h2]
    rw [ht]
    simp [jsOrStrD, truthyStr, hne]
  · intro h1 h2 h3
    simp only [normalizeSegment, orStr_neg _ _ h1, orStr_neg _ _ h2]
    simp [jsOrStrD, h3]
  · intro q hq hne
    have h1 : truthyVal seg.start = true := by rw [hq]; simp [truthyVal, hne]
    simp only [normalizeSegment, orVal_pos _ _ h1]
    rw [hq]
    simp [jsOrValD, truthyVal, hne, parseTime]
  · intro hf q hq hne
    have h2 : truthyVal seg.start_time = true := by rw [hq]; simp [truthyVal, hne]
    simp only [normalizeSegment, orVal_neg _ _ hf, orVal_pos _ _ h2]
    rw [hq]
    simp [jsOrValD, truthyVal, hne, parseTime]
  · intro h1 h2 h3
    simp only [normalizeSegment, orVal_neg _ _ h1, orVal_neg _ _ h2]
    simp [jsOrValD, h3, parseTime]

/-- C3 witness: truthy-alias resolution at concrete raw segments. -/
theorem c3_witness :
    (normalizeSegment ({ text := some ("hi") } : RawSegment)).text = ("hi")
    ∧ (normalizeSegment
        ({ start := some (JSVal.num 0)
           start_time := some (JSVal.num 5) } : RawSegment)).start = some 5 :=
  ⟨(c3_alias_resolution_truthy { text := some ("hi") }).1 ("hi") rfl (by decide),
    (c3_alias_resolution_truthy
      { start := some (JSVal.num 0)
        start_time := some (JSVal.num 5) }).2.2.2.2.1 (by decide) 5 rfl (by norm_num)⟩

/-- C8: the generated command places the seek argument (`-ss` with the
formatted start time) immediately before the input argument when the codec
is `copy`, and immediately after it when the codec is `reencode` — shown
structurally on the `parts` array, for any start/end/paths. -/
theorem c8_seek_placement (o : ClipOptions) :
    (o.codec.getD Codec.copy = Codec.copy →
      ∃ tl, generateFFmpegCommandParts o =
        ["ffmpeg", "-y", ("-ss ") ++ formatTimestamp o.start,
          ("-i \"") ++ o.inputPath ++ "\""] ++ tl)
    ∧ (o.codec.getD Codec.copy = Codec.reencode →
      ∃ tl, generateFFmpegCommandParts o =
        ["ffmpeg", "-y", ("-i \"") ++ o.inputPath ++ "\"",
          ("-ss ") ++ formatTimestamp o.start] ++ tl) := by
  constructor
  · intro h
    refine ⟨[("-to ") ++ formatTimestamp o.«end»]
      ++ (if truthyNum o.fadeIn || truthyNum o.fadeOut then
            [("-af \x22") ++ joinComma
              ((if truthyNum o.fadeIn then
                  [("afade=t=in:st=0:d=") ++ String.mk (jsNumChars (o.fadeIn.getD 0))]
                else [])
              ++ (if truthyNum o.fadeOut then
                  [("afade=t=out:st=")
                    ++ String.mk (jsNumChars ((o.«end» - o.start) - o.fadeOut.getD 0))
                    ++ (":d=") ++ String.mk (jsNumChars (o.fadeOut.getD 0))]
                else [])) ++ "\x22"]
          else [])
      ++ [("-c copy")] ++ [("\x22") ++ o.outputPath ++ "\x22"], ?_⟩
    simp [generateFFmpegCommandParts, h]
  · intro h
    refine ⟨[("-to ") ++ formatTimestamp o.«end»]
      ++ (if truthyNum o.fadeIn || truthyNum o.fadeOut then
            [("-af \x22") ++ joinComma
              ((if truthyNum o.fadeIn then
                  [("afade=t=in:st=0:d=") ++ String.mk (jsNumChars (o.fadeIn.getD 0))]
                else [])
              ++ (if truthyNum o.fadeOut then
                  [("afade=t=out:st=")
                    ++ String.mk (jsNumChars ((o.«end» - o.start) - o.fadeOut.getD 0))
                    ++ (":d=") ++ String.mk (jsNumChars (o.fadeOut.getD 0))]
                else [])) ++ "\x22"]
          else [])
      ++ (let ext := lastDotComponent o.outputPath
          if ext = "mp3" then [("-c:a libmp3lame -q:a 2")]
          else if ext = "aac" ∨ ext = "m4a" then [("-c:a aac -b:a 192k")]
          else if ext = "wav" then [("-c:a pcm_s16le")]
          else if ext = "mp4" then [("-c:v copy -c:a aac -b:a 192k")]
          else [])
      ++ [("\x22") ++ o.outputPath ++ "\x22"], ?_⟩
    simp [generateFFmpegCommandParts, h]

/-- C8 witness: seek placement at concrete options in both codec modes. -/
theorem c8_witness :
    (∃ tl, generateFFmpegCommandParts
        { inputPath := ("in.mp3"), outputPath := ("out.mp3"), start := 10, «end» := 20
          codec := some Codec.copy }
      = ["ffmpeg", "-y", ("-ss ") ++ formatTimestamp 10,
          ("-i \"") ++ ("in.mp3") ++ "\""] ++ tl)
    ∧ (∃ tl, generateFFmpegCommandParts
        { inputPath := ("in.mp3"), outputPath := ("out.mp3"), start := 10, «end» := 20
          codec := some Codec.reencode }
      = ["ffmpeg", "-y", ("-i \"") ++ ("in.mp3") ++ "\"",
          ("-ss ") ++ formatTimestamp 10] ++ tl) := by
  constructor
  · exact (c8_seek_placement
      { inputPath := ("in.mp3"), outputPath := ("out.mp3"), start := 10, «end» := 20
        codec := some Codec.copy }).1 rfl
  · exact (c8_seek_placement
      { inputPath := ("in.mp3"), outputPath := ("out.mp3"), start := 10, «end» := 20
        codec := some Codec.reencode }).2 rfl

theorem af_prefix_false_head (c : Char) (rest : List Char) (hc : c ≠ '-') :
    List.isPrefixOf (("-af").data) (c :: rest) = false := by
  show List.isPrefixOf ['-', 'a', 'f'] (c :: rest) = false
  simp [List.isPrefixOf, beq_iff_eq]
  intro h
  exact absurd h.symm hc

theorem af_prefix_false_snd (c : Char) (rest : List Char) (hc : c ≠ 'a') :
    List.isPrefixOf (("-af").data) ('-' :: c :: rest) = false := by
  show List.isPrefixOf ['-', 'a', 'f'] ('-' :: c :: rest) = false
  simp [List.isPrefixOf, beq_iff_eq]
  intro h
  exact absurd h.symm hc

/-- With both fades falsy, no element of the generated `parts` array starts
with `-af`. -/
theorem parts_no_af (o : ClipOptions) (h1 : truthyNum o.fadeIn = false)
    (h2 : truthyNum o.fadeOut = false) :
    ∀ p ∈ generateFFmpegCommandParts o,
      List.isPrefixOf (("-af").data) p.data = false := by
  have hss : List.isPrefixOf (("-af").data)
      ((("-ss ") ++ formatTimestamp o.start)).data = false := by
    rw [show ((("-ss ") ++ formatTimestamp o.start)).data
        = '-' :: 's' :: 's' :: ' ' :: (formatTimestamp o.start).data from rfl]
    exact af_prefix_false_snd _ _ (by decide)
  have hinp : List.isPrefixOf (("-af").data)
      ((("-i \x22") ++ o.inputPath ++ "\x22")).data = false := by
    rw [show ((("-i \x22") ++ o.inputPath ++ "\x22")).data
        = '-' :: 'i' :: ' ' :: '"' :: (o.inputPath ++ "\x22").data from rfl]
    exact af_prefix_false_snd _ _ (by decide)
  have hto : List.isPrefixOf (("-af").data)
      ((("-to ") ++ formatTimestamp o.«end»)).data = false := by
    rw [show ((("-to ") ++ formatTimestamp o.«end»)).data
        = '-' :: 't' :: 'o' :: ' ' :: (formatTimestamp o.«end»).data from rfl]
    exact af_prefix_false_snd _ _ (by decide)
  have hout : List.isPrefixOf (("-af").data)
      ((("\x22") ++ o.outputPath ++ "\x22")).data = false := by
    rw [show ((("\x22") ++ o.outputPath ++ "\x22")).data
        = '"' :: (o.outputPath ++ "\x22").data from rfl]
    exact af_prefix_false_head _ _ (by decide)
  intro p hp
  rw [generateFFmpegCommandParts] at hp
  simp only [h1, h2, Bool.or_self, Bool.false_eq_true, if_false] at hp
  rcases List.mem_append.mp hp with h | h
  swap
  · rcases List.mem_singleton.mp h with rfl
    exact hout
  rcases List.mem_append.mp h with h | h
  swap
  · split_ifs at h <;> first
      | (rcases List.mem_singleton.mp h with rfl; decide)
      | simp at h
  rcases List.mem_append.mp h with h | h
  swap
  · simp at h
  rcases List.mem_append.mp h with h | h
  swap
  · rcases List.mem_singleton.mp h with rfl
    exact hto
  rcases List.mem_append.mp h with h | h
  swap
  · split_ifs at h
    · rcases List.mem_singleton.mp h with rfl
      exact hss
    · simp at h
  rcases List.mem_append.mp h with h | h
  swap
  · rcases List.mem_singleton.mp h with rfl
    exact hinp
  rcases List.mem_append.mp h with h | h
  swap
  · split_ifs at h
    · rcases List.mem_singleton.mp h with rfl
      exact hss
    · simp at h
  rcases List.mem_cons.mp h with rfl | h
  · decide
  · rcases List.mem_singleton.mp h with rfl
    decide

/-- C10: an explicit zero fade is treated identically to an omitted fade
(`0` is falsy under `if (fadeIn)`), and when both fades are zero or absent
the command contains no `-af` audio-filter argument at all. -/
theorem c10_zero_fade_like_absent (o : ClipOptions) :
    generateFFmpegCommand { o with fadeIn := some 0 }
      = generateFFmpegCommand { o with fadeIn := none }
    ∧ generateFFmpegCommand { o with fadeOut := some 0 }
      = generateFFmpegCommand { o with fadeOut := none }
    ∧ (truthyNum o.fadeIn = false → truthyNum o.fadeOut = false →
        ∀ p ∈ generateFFmpegCommandParts o,
          List.isPrefixOf (("-af").data) p.data = false) := by
  refine ⟨?_, ?_, parts_no_af o⟩
  · simp [generateFFmpegCommand, generateFFmpegCommandParts, truthyNum]
  · simp [generateFFmpegCommand, generateFFmpegCommandParts, truthyNum]

/-- C10 witness: with both fades zero at concrete options, the command
equals the fade-free command and no part starts with `-af`. -/
theorem c10_witness :
    generateFFmpegCommand
        { inputPath := ("in.mp3"), outputPath := ("out.mp3"), start := 10, «end» := 20
          fadeIn := some 0, fadeOut := some 0 }
      = generateFFmpegCommand
        { inputPath := ("in.mp3"), outputPath := ("out.mp3"), start := 10, «end» := 20
          fadeIn := none, fadeOut := some 0 }
    ∧ ∀ p ∈ generateFFmpegCommandParts
        { inputPath := ("in.mp3"), outputPath := ("out.mp3"), start := 10, «end» := 20
          fadeIn := some 0, fadeOut := some 0 },
        List.isPrefixOf (("-af").data) p.data = false := by
  constructor
  · exact (c10_zero_fade_like_absent
      { inputPath := ("in.mp3"), outputPath := ("out.mp3"), start := 10, «end» := 20
        fadeIn := some 0, fadeOut := some 0 }).1
  · exact (c10_zero_fade_like_absent
      { inputPath := ("in.mp3"), outputPath := ("out.mp3"), start := 10, «end» := 20
        fadeIn := some 0, fadeOut := some 0 }).2.2 rfl rfl

/-- C1 counterexample: the batch filenames are `clip_001_12s.mp3` and
`clip_002_45s.mp3` — the three-digit zero padding applies to the sequence
number, not to the start-time suffix, so the first filename does not end in
`_012s` before the extension. -/
theorem c1_counterexample :
    clipsFromInsights ("ep.mp3") [⟨"", "", 12, 20⟩, ⟨"", "", 45, 50⟩] ("out") {}
      = [("ffmpeg -y -ss 0:12.000 -i \x22ep.mp3\x22 -to 0:20.000 -c copy \x22out/clip_001_12s.mp3\x22"),
         ("ffmpeg -y -ss 0:45.000 -i \x22ep.mp3\x22 -to 0:50.000 -c copy \x22out/clip_002_45s.mp3\x22")]
    ∧ insightClipFilename 0 ⟨"", "", 12, 20⟩ = ("clip_001_12s.mp3")
    ∧ List.isSuffixOf (("_012s.mp3").data) ((("clip_001_12s.mp3") : String).data) = false
    ∧ containsSub (("_012s").data)
        ((("ffmpeg -y -ss 0:12.000 -i \x22ep.mp3\x22 -to 0:20.000 -c copy \x22out/clip_001_12s.mp3\x22") : String).data)
      = false := by
  refine ⟨?_, ?_, by decide, by decide⟩
  · norm_num [clipsFromInsights, mapWithIndex, clipFromInsight, insightClipFilename,
      generateFFmpegCommand, generateFFmpegCommandParts, formatTimestamp, jsMod,
      ratTrunc, toFixed3, toFixed0, truthyNum, joinSpace, lastDotComponent]
    decide
  · norm_num [insightClipFilename, toFixed0]
    decide

/-- C1 (amended): for every media path, output directory and option patch,
two insights with start times 12.0 and 45.0 produce exactly two plans in
the given insight order; the filenames carry the zero-padded sequence
numbers `001`/`002` and the *unpadded* rounded start-time suffixes `_12s`
and `_45s` before the extension. -/
theorem c1_batch_insight_filenames (media outputDir : String)
    (opts : ClipOptionsPatch) (i1 i2 : Insight)
    (h1 : i1.timestamp_start = 12) (h2 : i2.timestamp_start = 45) :
    clipsFromInsights media [i1, i2] outputDir opts
      = [clipFromInsight media i1
          { opts with
            outputPath := some (outputDir ++ ("/") ++ insightClipFilename 0 i1) },
         clipFromInsight media i2
          { opts with
            outputPath := some (outputDir ++ ("/") ++ insightClipFilename 1 i2) }]
    ∧ insightClipFilename 0 i1 = ("clip_001_12s.mp3")
    ∧ insightClipFilename 1 i2 = ("clip_002_45s.mp3")
    ∧ List.isSuffixOf (("_12s.mp3").data) ((insightClipFilename 0 i1).data) = true
    ∧ List.isSuffixOf (("_45s.mp3").data) ((insightClipFilename 1 i2).data) = true := by
  have hf1 : insightClipFilename 0 i1 = ("clip_001_12s.mp3") := by
    rw [insightClipFilename, h1]
    norm_num [toFixed0]
    decide
  have hf2 : insightClipFilename 1 i2 = ("clip_002_45s.mp3") := by
    rw [insightClipFilename, h2]
    norm_num [toFixed0]
    decide
  exact ⟨rfl, hf1, hf2, by rw [hf1]; decide, by rw [hf2]; decide⟩

/-- C1 witness: the amended claim at concrete insights with start times
12.0 and 45.0. -/
theorem c1_witness :
    insightClipFilename 0 (⟨"", "", 12, 20⟩ : Insight) = ("clip_001_12s.mp3")
    ∧ insightClipFilename 1 (⟨"", "", 45, 50⟩ : Insight) = ("clip_002_45s.mp3") :=
  ⟨(c1_batch_insight_filenames ("ep.mp3") ("out") {} ⟨"", "", 12, 20⟩ ⟨"", "", 45, 50⟩
      rfl rfl).2.1,
    (c1_batch_insight_filenames ("ep.mp3") ("out") {} ⟨"", "", 12, 20⟩ ⟨"", "", 45, 50⟩
      rfl rfl).2.2.1⟩
